import Mathlib

/-!
Shallow embedding of the CASPER TAPCP server core (`casper_tapcp.c`)
and proofs about its codecs, openers and resolver.

Conventions used throughout:

* C strings and byte buffers are `List Nat`, one entry per byte
  (values `0`-`255`); a C string is represented by its contents up to,
  and excluding, the terminating NUL, and is assumed NUL-free.
* 32-bit machine quantities are `Nat`, reduced modulo `2 ^ 32` wherever
  the C code performs 32-bit arithmetic that can wrap.
* Memory-mapped FPGA space is a function `Nat → Nat` from byte
  addresses to the stored word; a 32-bit bus load at address `a`
  yields `mem a % 2 ^ 32` (the bus is 32 bits wide).
* Hardware word stores performed by the write codecs are recorded as an
  ordered list of `(address, value)` pairs.
* An lwIP `pbuf` chain is a `List (List Nat)`: the payloads of the
  fragments in chain order.
-/

namespace Tapcp

/-- C `isdigit` on an ASCII byte. -/
def isdigit (c : Nat) : Bool := decide (48 ≤ c ∧ c ≤ 57)

/-- C `isxdigit` on an ASCII byte. -/
def isxdigit (c : Nat) : Bool :=
  isdigit c || decide (65 ≤ c ∧ c ≤ 70) || decide (97 ≤ c ∧ c ≤ 102)

/-- C `isspace` on an ASCII byte. -/
def isspace (c : Nat) : Bool := decide (c = 32 ∨ (9 ≤ c ∧ c ≤ 13))

/-- Value of one hex digit, as computed in the body of `hex_to_u32`:
digits via `c - '0'`, letters via `(c | 0x20) - 'a' + 10`. -/
def hexVal (c : Nat) : Nat :=
  if isdigit c then c - 48 else (c ||| 32) - 97 + 10

/-- The digit-consuming loop of `hex_to_u32` (`for(i=0; i<8; i++)`).
The fuel argument is the remaining number of loop iterations (at most
8); an empty list stands for the NUL terminator, which is not a hex
digit and therefore stops the loop exactly as in C. -/
def hexGo : Nat → List Nat → Nat → List Nat × Nat
  | 0, l, u => (l, u)
  | _ + 1, [], u => ([], u)
  | fuel + 1, c :: t, u =>
    if isxdigit c then hexGo fuel t (16 * u + hexVal c) else (c :: t, u)

/-- `hex_to_u32(p, &u32)` from `casper_tapcp.c`: if the string is
non-empty, the accumulator is reset to `0` and up to 8 leading hex
digits are consumed MSB-first; the returned list is the unconsumed
suffix.  An empty string leaves the accumulator untouched. -/
def hex_to_u32 (p : List Nat) (u : Nat) : List Nat × Nat :=
  match p with
  | [] => ([], u)
  | c :: t => if c = 0 then (c :: t, u) else hexGo 8 (c :: t) 0

/-- Value of a list of hex digits, MSB-first (specification-side helper
mirroring the accumulation order of `hex_to_u32`). -/
def hexListVal (ds : List Nat) : Nat :=
  ds.foldl (fun a c => 16 * a + hexVal c) 0

/-- ASCII bytes of a Lean string literal. -/
def strBytes (s : String) : List Nat := s.data.map Char.toNat

/-- Reinterpret the low 32 bits of a value as a signed 32-bit `int`
(for C assignments of `uint32_t` expressions to `int` fields). -/
def toSigned32 (n : Nat) : Int :=
  if n % 2 ^ 32 < 2 ^ 31 then (n % 2 ^ 32 : Int) else (n % 2 ^ 32 : Int) - 2 ^ 32

/-- Character emitted for one nibble by `u8_to_hex` (`c - 10 + 'A'` or
`c + '0'`, uppercase). -/
def hexChar (c : Nat) : Nat := if c > 9 then c - 10 + 65 else c + 48

/-- `u8_to_hex(u8, p, do_zeros)` from `casper_tapcp.c`, returning the
emitted characters: high nibble if non-zero or forced by the high
nibble of `do_zeros`; low nibble if non-zero or forced by the low
nibble of the (possibly updated) `do_zeros`. -/
def u8_to_hex (u8 : Nat) (do_zeros : Nat) : List Nat :=
  let hi := (u8 >>> 4) % 16
  let emitHi : Bool := decide (hi ≠ 0 ∨ do_zeros >>> 4 ≠ 0)
  let dz := if emitHi then do_zeros ||| hi else do_zeros
  let lo := u8 % 16
  (if emitHi then [hexChar hi] else []) ++
    (if lo ≠ 0 ∨ dz % 16 ≠ 0 then [hexChar lo] else [])

/-- The `for(i=0; i<4; i++)` loop of `u32_to_hex`; `i` is the loop
index and the fuel is the number of remaining iterations. -/
def u32Go (u32 : Nat) : Nat → Nat → Nat → List Nat
  | 0, _, _ => []
  | fuel + 1, i, dz =>
    let c := (u32 >>> (24 - 8 * i)) % 256
    u8_to_hex c (if dz ≠ 0 then 17 else if i = 3 then 1 else 0) ++
      u32Go u32 fuel (i + 1) (dz ||| c)

/-- `u32_to_hex(u32, p, do_zeros)` from `casper_tapcp.c`: emits the
word MSB byte first; leading zero bytes are suppressed unless
`do_zeros` is non-zero. -/
def u32_to_hex (u32 do_zeros : Nat) : List Nat := u32Go u32 4 0 do_zeros

/-- Transfer state `struct tapcp_state` (fields as used in
`casper_tapcp.c`: direction, mode, cursor pointer, remaining-byte
bound, line index, and the 32-bit scratch word). -/
structure TapcpState where
  write : Bool
  binary : Bool
  ptr : Nat
  nleft : Int
  lidx : Int
  u32 : Nat
deriving DecidableEq

/-- Device descriptor filled in by `casper_find_dev`
(`struct casper_dev_info`: offset word with its flag bits, length in
bytes). -/
structure DevInfo where
  offset : Nat
  length : Nat
deriving DecidableEq

/-- The read or write chunk callback registered via `set_tftp_read` /
`set_tftp_write` during open. -/
inductive Codec where
  | readHelp
  | readListdevAscii
  | readMemBytesBinary
  | readMemBytesAscii
  | readFpgaWordsBinary
  | readFpgaWordsAscii
  | writeFpgaWordsBinary
  | writeFpgaWordsAscii
deriving DecidableEq

/-- External collaborators and link-time constants consumed by the
core: the catalog lookup (`casper_find_dev`, returning the device base
pointer and descriptor), the addresses of the help banner and of the
`core_info` blob, and the FPGA memory-space geometry. -/
structure Env where
  find_dev : List Nat → Option (Nat × DevInfo)
  helpAddr : Nat
  coreInfoAddr : Nat
  coreInfoLen : Nat
  fpgaBase : Nat
  fpgaNBytes : Nat

/-- The fixed help banner `tapcp_help_msg` (its bytes, excluding the
terminating NUL). -/
def tapcp_help_msg : List Nat := strBytes
  "Available TAPCP commands:\n  /help    - this message\n  /listdev - list FPGA device info\n  /temp    - get FPGA temperature\n  [/dev/]DEVNAME[.OFFSET[.LENGTH]] - access DEVNAME\n  /fpga.OFFSET[.LENGTH] - access FPGA memory space\n  /cpu.OFFSET[.LENGTH]  - access CPU memory space\n"

/-- `strncmp(prefix, s, strlen(prefix)) == 0` on NUL-free byte lists
(an exhausted `s` stands for its NUL terminator, which mismatches any
prefix byte). -/
def listPrefix : List Nat → List Nat → Bool
  | [], _ => true
  | _ :: _, [] => false
  | p :: ps, c :: cs => decide (p = c) && listPrefix ps cs

/-- Index of the first occurrence of byte `c` (`strchr`). -/
def strchrIdx : List Nat → Nat → Option Nat
  | [], _ => none
  | x :: xs, c => if x = c then some 0 else (strchrIdx xs c).map (· + 1)

/-- `casper_tapcp_read_help`: copy `min(bytes, nleft)` bytes of
byte-addressable memory at the cursor.  `mem` is CPU byte memory (a
load yields `mem a % 256`). -/
def casper_tapcp_read_help (mem : Nat → Nat) (st : TapcpState) (bytes : Nat) :
    TapcpState × List Nat :=
  let len : Int := if (bytes : Int) < st.nleft then (bytes : Int) else st.nleft
  let n := len.toNat
  ({ st with ptr := st.ptr + n, nleft := st.nleft - len },
    (List.range n).map fun i => mem (st.ptr + i) % 256)

/-- `casper_tapcp_open_help`: point the cursor at the banner, set
`nleft` to its length, and register the help producer.  Neither the
opener nor the producer consults the mode flag. -/
def casper_tapcp_open_help (env : Env) (st : TapcpState) : TapcpState × Codec :=
  ({ st with ptr := env.helpAddr, nleft := (tapcp_help_msg.length : Int) },
    Codec.readHelp)

/-- `casper_tapcp_open_listdev`: binary mode streams the length-prefixed
catalog blob; text mode initializes the iterator sentinel. -/
def casper_tapcp_open_listdev (env : Env) (st : TapcpState) : TapcpState × Codec :=
  if st.binary then
    ({ st with ptr := env.coreInfoAddr - 2, nleft := (env.coreInfoLen : Int) + 2 },
      Codec.readMemBytesBinary)
  else
    ({ st with ptr := env.coreInfoAddr, lidx := -1 }, Codec.readListdevAscii)

/-- The tail of `casper_tapcp_open_dev` after the catalog lookup:
read-only rejection, offset/length parsing (`afterDot` is the suffix
after the first dot, `none` if there was no dot), length defaulting,
read bounds check, cursor/bound setup and codec registration.  All
arithmetic on `cmd_off`/`cmd_len` is 32-bit. -/
def openDevTail (st : TapcpState) (base : Nat) (info : DevInfo)
    (afterDot : Option (List Nat)) : Option (TapcpState × Codec) :=
  if st.write = true ∧ info.offset % 2 = 1 then none
  else
    let (cmd_off, cmd_len) :=
      match afterDot with
      | none => (0, 0)
      | some p =>
        if p = [] then (0, 0)
        else
          let (p1, o) := hex_to_u32 p 0
          if st.write = false ∧ p1 ≠ [] then (o, (hex_to_u32 (p1.drop 1) 0).2)
          else (o, 0)
    let cmd_len2 :=
      if cmd_len = 0 then (info.length / 4 + 2 ^ 32 - cmd_off) % 2 ^ 32 else cmd_len
    if cmd_len = 0 ∧ cmd_len2 = 0 then none
    else if st.write = false ∧ (cmd_off + cmd_len2) % 2 ^ 32 > info.length / 4 then
      none
    else
      let st1 := { st with
        ptr := (base + cmd_off * 4 % 2 ^ 32) % 2 ^ 32,
        nleft := toSigned32 (cmd_len2 * 4) }
      if st.write = false then
        if st.binary then some (st1, Codec.readFpgaWordsBinary)
        else some ({ st1 with lidx := 0, u32 := 0 }, Codec.readFpgaWordsAscii)
      else
        if st.binary then some ({ st1 with u32 := 0 }, Codec.writeFpgaWordsBinary)
        else some ({ st1 with lidx := 0, u32 := 0 }, Codec.writeFpgaWordsAscii)

/-- `casper_tapcp_open_dev`: strip an optional `/dev/` prefix, split at
the first dot by temporarily overwriting it with NUL, look the name up
in the catalog, restore the dot, and delegate to `openDevTail`.  The
second component is the filename buffer as left behind by the call
(the NUL write and its restoration made explicit). -/
def casper_tapcp_open_dev (env : Env) (st : TapcpState) (fname : List Nat) :
    Option (TapcpState × Codec) × List Nat :=
  let pre : Nat := if listPrefix (strBytes "/dev/") fname then 5 else 0
  let rest := fname.drop pre
  match strchrIdx rest 46 with
  | none =>
    match env.find_dev rest with
    | none => (none, fname)
    | some (base, info) => (openDevTail st base info none, fname)
  | some i =>
    let mutated := rest.set i 0
    let name := mutated.take i
    let restored := mutated.set i 46
    let buf := fname.take pre ++ restored
    match env.find_dev name with
    | none => (none, buf)
    | some (base, info) =>
      (openDevTail st base info (some (rest.drop (i + 1))), buf)

/-- The tail of `casper_tapcp_open_mem` after prefix dispatch: `p` is
the filename suffix after `/fpga.` or `/cpu.`, `baseaddr`/`nbytes` the
selected region (0/0 for the CPU space, exactly as the C locals are
left).  Parses offset and length, word-aligns them, bounds-checks reads
of the FPGA region, and sets up cursor, bound and codec. -/
def openMemTail (env : Env) (st : TapcpState) (p : List Nat)
    (baseaddr nbytes : Nat) : Option (TapcpState × Codec) :=
  if p = [] then none
  else
    let (p1, cmd_off0) := hex_to_u32 p 0
    let cmd_len1 : Nat :=
      if st.write = false ∧ p1 ≠ [] then (hex_to_u32 (p1.drop 1) 1).2 else 1
    let cmd_off := cmd_off0 - cmd_off0 % 4
    let cmd_len := (cmd_len1 + 3) % 2 ^ 32 / 4 * 4
    if st.write = false ∧ cmd_len = 0 then none
    else if st.write = false ∧ baseaddr = env.fpgaBase ∧
        (cmd_off + cmd_len) % 2 ^ 32 > nbytes then none
    else
      let st1 := { st with
        ptr := (baseaddr + cmd_off) % 2 ^ 32,
        nleft := if st.write then toSigned32 (env.fpgaNBytes + 2 ^ 32 - cmd_off)
                 else toSigned32 cmd_len }
      if st.write = false then
        if baseaddr = env.fpgaBase then
          if st.binary then some (st1, Codec.readFpgaWordsBinary)
          else some ({ st1 with lidx := 0, u32 := 0 }, Codec.readFpgaWordsAscii)
        else
          if st.binary then some (st1, Codec.readMemBytesBinary)
          else some ({ st1 with lidx := 0, u32 := 0 }, Codec.readMemBytesAscii)
      else
        if st.binary then some ({ st1 with u32 := 0 }, Codec.writeFpgaWordsBinary)
        else some ({ st1 with lidx := 0, u32 := 0 }, Codec.writeFpgaWordsAscii)

/-- `casper_tapcp_open_mem`: dispatch on the `/fpga.` and `/cpu.`
prefixes; CPU access is allowed for reads only. -/
def casper_tapcp_open_mem (env : Env) (st : TapcpState) (fname : List Nat) :
    Option (TapcpState × Codec) :=
  if listPrefix (strBytes "/fpga.") fname then
    openMemTail env st (fname.drop 6) env.fpgaBase env.fpgaNBytes
  else if st.write = false ∧ listPrefix (strBytes "/cpu.") fname then
    openMemTail env st (fname.drop 5) 0 0
  else none

/-- Modelled from the spec: the top-level request dispatcher.  The
engine glue that routes a requested filename to the openers
(`casper_tftp.c`) is not part of the provided source; per §4.G of the
spec, `/help`, `/listdev` and `/temp` are GET-only, `/fpga.*` and
`/cpu.*` go to `casper_tapcp_open_mem`, and everything else is a
device request handled by `casper_tapcp_open_dev`.  The `/temp`
producer is commented out in the source, so `/temp` is modelled as
open-failure in both directions (claims settled against this
definition concern only the PUT direction). -/
def tapcp_resolve (env : Env) (st : TapcpState) (fname : List Nat) :
    Option (TapcpState × Codec) :=
  if fname = strBytes "/help" then
    if st.write then none else some (casper_tapcp_open_help env st)
  else if fname = strBytes "/listdev" then
    if st.write then none else some (casper_tapcp_open_listdev env st)
  else if fname = strBytes "/temp" then none
  else if listPrefix (strBytes "/fpga.") fname || listPrefix (strBytes "/cpu.") fname then
    casper_tapcp_open_mem env st fname
  else
    (casper_tapcp_open_dev env st fname).1

/-- The per-fragment byte loop of `casper_tapcp_write_fpga_words_binary`:
threads `(ptr, nleft, u32, word)` through the bytes of one pbuf
payload, accumulating each byte MSB-first into the 32-bit `word` and
storing it at the cursor after every fourth byte.  The Bool result is
the `return -1` error flag (bound exceeded), raised before the
offending byte is consumed. -/
def wbBytes : List Nat → Nat → Int → Nat → Nat → List (Nat × Nat) →
    Bool × Nat × Int × Nat × Nat × List (Nat × Nat)
  | [], ptr, nleft, u32, word, acc => (false, ptr, nleft, u32, word, acc)
  | b :: bs, ptr, nleft, u32, word, acc =>
    if nleft = 0 then (true, ptr, nleft, u32, word, acc)
    else
      let word' := (word * 256 + b % 256) % 2 ^ 32
      let u32' := (u32 + 1) % 2 ^ 32
      let (ptr', acc') :=
        if u32' % 4 = 0 then (ptr + 4, acc ++ [(ptr, word')]) else (ptr, acc)
      let nleft' := if nleft > 0 then nleft - 1 else nleft
      wbBytes bs ptr' nleft' u32' word' acc'

/-- The pbuf-chain loop of `casper_tapcp_write_fpga_words_binary`. -/
def wbChain : List (List Nat) → Nat → Int → Nat → Nat → List (Nat × Nat) →
    Bool × Nat × Int × Nat × Nat × List (Nat × Nat)
  | [], ptr, nleft, u32, word, acc => (false, ptr, nleft, u32, word, acc)
  | bs :: rest, ptr, nleft, u32, word, acc =>
    match wbBytes bs ptr nleft u32 word acc with
    | (true, ptr', nleft', u32', word', acc') => (true, ptr', nleft', u32', word', acc')
    | (false, ptr', nleft', u32', word', acc') => wbChain rest ptr' nleft' u32' word' acc'

/-- `casper_tapcp_write_fpga_words_binary`: consume a pbuf chain,
writing complete 32-bit words to the FPGA.  `word0` is the value of the
function-static accumulator `word` on entry.  Returns the C return
value (`tot_len`, which the C function never increments, so `0` on
success and `-1` on error), the updated transfer state, the final
static accumulator, and the word stores performed. -/
def casper_tapcp_write_fpga_words_binary (st : TapcpState) (word0 : Nat)
    (chain : List (List Nat)) : Int × TapcpState × Nat × List (Nat × Nat) :=
  match wbChain chain st.ptr st.nleft st.u32 word0 [] with
  | (err, ptr, nleft, u32, word, acc) =>
    (if err then -1 else 0, { st with ptr := ptr, nleft := nleft, u32 := u32 },
      word, acc)

/-- The line-processing loop of `casper_tapcp_write_fpga_words_ascii`
(the `while(*plb != '\n')` walk over the buffered line): skip
whitespace, stop at the newline or at the first character that is
neither whitespace nor a hex digit, and turn each maximal run of hex
digits into successive 32-bit words via `hex_to_u32`, each stored at
the cursor.  The Bool result is the bound-exceeded error flag.  The
fuel dominates the walk (each step consumes at least one byte). -/
def scanLine : Nat → Nat → Int → List Nat → List (Nat × Nat) →
    Bool × Nat × Int × List (Nat × Nat)
  | 0, ptr, nleft, _, acc => (false, ptr, nleft, acc)
  | fuel + 1, ptr, nleft, buf, acc =>
    match buf with
    | [] => (false, ptr, nleft, acc)
    | c :: rest =>
      if c = 10 then (false, ptr, nleft, acc)
      else if isspace c then scanLine fuel ptr nleft rest acc
      else if isxdigit c = false then (false, ptr, nleft, acc)
      else if 0 ≤ nleft ∧ nleft < 4 then (true, ptr, nleft, acc)
      else
        match hex_to_u32 (c :: rest) 0 with
        | (buf', w) =>
          scanLine fuel (ptr + 4) (if nleft > 0 then nleft - 4 else nleft) buf'
            (acc ++ [(ptr, w)])

/-- The per-fragment byte loop of `casper_tapcp_write_fpga_words_ascii`:
threads `(ptr, nleft, lidx, colon-flag, line buffer)` through the bytes
of one pbuf payload.  Leading whitespace is skipped, the first colon
resets the buffer (discarding the label), a newline triggers
`scanLine`, and overflowing the 279-byte static `line_buf` is a fatal
error. -/
def waBytes : List Nat → Nat → Int → Int → Nat → List Nat → List (Nat × Nat) →
    Bool × Nat × Int × Int × Nat × List Nat × List (Nat × Nat)
  | [], ptr, nleft, lidx, flag, buf, acc => (false, ptr, nleft, lidx, flag, buf, acc)
  | c :: bs, ptr, nleft, lidx, flag, buf, acc =>
    if 279 ≤ lidx then (true, ptr, nleft, lidx, flag, buf, acc)
    else if lidx = 0 ∧ isspace c = true then waBytes bs ptr nleft lidx flag buf acc
    else if c = 58 ∧ flag = 0 then waBytes bs ptr nleft 0 1 [] acc
    else
      let buf' := buf ++ [c]
      if c = 10 then
        match scanLine (buf'.length + 1) ptr nleft buf' acc with
        | (true, ptr', nleft', acc') => (true, ptr', nleft', lidx + 1, flag, buf', acc')
        | (false, ptr', nleft', acc') => waBytes bs ptr' nleft' 0 0 [] acc'
      else waBytes bs ptr nleft (lidx + 1) flag buf' acc

/-- The pbuf-chain loop of `casper_tapcp_write_fpga_words_ascii`. -/
def waChain : List (List Nat) → Nat → Int → Int → Nat → List Nat → List (Nat × Nat) →
    Bool × Nat × Int × Int × Nat × List Nat × List (Nat × Nat)
  | [], ptr, nleft, lidx, flag, buf, acc => (false, ptr, nleft, lidx, flag, buf, acc)
  | bs :: rest, ptr, nleft, lidx, flag, buf, acc =>
    match waBytes bs ptr nleft lidx flag buf acc with
    | (true, ptr', nleft', lidx', flag', buf', acc') =>
      (true, ptr', nleft', lidx', flag', buf', acc')
    | (false, ptr', nleft', lidx', flag', buf', acc') =>
      waChain rest ptr' nleft' lidx' flag' buf' acc'

/-- `casper_tapcp_write_fpga_words_ascii`: consume a pbuf chain of
hexdump text, writing parsed 32-bit words to the FPGA.  `lineBuf` is
the content of the static `line_buf` already filled on entry (its
length equals `st.lidx` in every reachable state).  Returns the C
return value (`tot_len`, never incremented, so `0` on success and `-1`
on error), the updated state, the remaining line buffer, and the word
stores performed. -/
def casper_tapcp_write_fpga_words_ascii (st : TapcpState) (lineBuf : List Nat)
    (chain : List (List Nat)) : Int × TapcpState × List Nat × List (Nat × Nat) :=
  match waChain chain st.ptr st.nleft st.lidx st.u32 lineBuf [] with
  | (err, ptr, nleft, lidx, flag, buf, acc) =>
    (if err then -1 else 0,
      { st with ptr := ptr, nleft := nleft, lidx := lidx, u32 := flag }, buf, acc)

/-- The loop of `casper_tapcp_read_fpga_words_binary`: the fuel is the
remaining output-buffer capacity (`bytes - len`); `word` is the
function-static word being drained.  The slot with
`(nleft - 1) mod 4 = 3` performs the 32-bit bus load and advances the
cursor. -/
def rbGo (mem : Nat → Nat) : Nat → Nat → Int → Nat → List Nat →
    Nat × Int × Nat × List Nat
  | 0, ptr, nleft, word, acc => (ptr, nleft, word, acc)
  | fuel + 1, ptr, nleft, word, acc =>
    if nleft > 0 then
      let n1 := nleft - 1
      match (n1 % 4).toNat with
      | 3 =>
        let w := mem ptr % 2 ^ 32
        rbGo mem fuel (ptr + 4) n1 w (acc ++ [w >>> 24 % 256])
      | 2 => rbGo mem fuel ptr n1 word (acc ++ [word >>> 16 % 256])
      | 1 => rbGo mem fuel ptr n1 word (acc ++ [word >>> 8 % 256])
      | _ => rbGo mem fuel ptr n1 word (acc ++ [word % 256])
    else (ptr, nleft, word, acc)

/-- `casper_tapcp_read_fpga_words_binary`: fill up to `bytes` output
bytes from word-aligned FPGA loads, MSB first.  `word0` is the value of
the static `word` on entry; the second result component is its value on
exit. -/
def casper_tapcp_read_fpga_words_binary (mem : Nat → Nat) (st : TapcpState)
    (word0 : Nat) (bytes : Nat) : TapcpState × Nat × List Nat :=
  match rbGo mem bytes st.ptr st.nleft word0 [] with
  | (ptr, nleft, word, out) => ({ st with ptr := ptr, nleft := nleft }, word, out)

/-- The `for(i=0; i<4; i++)` word loop of
`casper_tapcp_read_fpga_words_ascii`: reads up to four words for one
line (separated by single spaces), stopping early when `nleft` reaches
zero.  Returns the rendered characters and the updated cursor and
`nleft`. -/
def rfaLineWords (mem : Nat → Nat) : Nat → Nat → Nat → Int →
    List Nat × Nat × Int
  | 0, _, ptr, nleft => ([], ptr, nleft)
  | fuel + 1, i, ptr, nleft =>
    let w := mem ptr % 2 ^ 32
    let nleft' := nleft - 4
    let chunk := (if i > 0 then [32] else []) ++ u32_to_hex w 1
    if nleft' = 0 then (chunk, ptr + 4, nleft')
    else
      match rfaLineWords mem fuel (i + 1) (ptr + 4) nleft' with
      | (rest, ptr', nleft'') => (chunk ++ rest, ptr', nleft'')

/-- The `lidx == 0` block of `casper_tapcp_read_fpga_words_ascii`:
renders the 8-digit label, `": "`, up to four words and the terminating
newline into the line buffer; the label for the next line is advanced
by 16. -/
def rfaBuildLine (mem : Nat → Nat) (ptr : Nat) (nleft : Int) (label : Nat) :
    List Nat × Nat × Int × Nat :=
  match rfaLineWords mem 4 0 ptr nleft with
  | (ws, ptr', nleft') =>
    (u32_to_hex label 1 ++ [58, 32] ++ ws ++ [10], ptr', nleft', (label + 16) % 2 ^ 32)

/-- The inner copy loop shared by the hexdump producers: drain bytes of
the line buffer starting at `lidx` into the output until the buffer
slot holds a newline (which is copied and resets `lidx` to 0) or the
output capacity (`budget`, i.e. `bytes - len`) is exhausted. -/
def copyFromLine : Nat → List Nat → Nat → List Nat → List Nat × Nat
  | 0, _, lidx, acc => (acc, lidx)
  | budget + 1, lineBuf, lidx, acc =>
    match lineBuf.drop lidx with
    | [] => (acc, lidx)
    | c :: _ =>
      if c = 10 then (acc ++ [c], 0)
      else copyFromLine budget lineBuf (lidx + 1) (acc ++ [c])

/-- The outer `while(len < bytes && nleft > 0)` loop of
`casper_tapcp_read_fpga_words_ascii`.  The fuel bounds the number of
loop iterations (each reachable iteration copies at least one byte, so
any fuel of at least `bytes + 1` gives the C behaviour). -/
def rfaGo (mem : Nat → Nat) : Nat → Nat → Int → Nat → Nat → List Nat → Nat →
    List Nat → Nat × Int × Nat × Nat × List Nat × List Nat
  | 0, ptr, nleft, lidx, label, lineBuf, _, acc =>
    (ptr, nleft, lidx, label, lineBuf, acc)
  | fuel + 1, ptr, nleft, lidx, label, lineBuf, budget, acc =>
    if budget > 0 ∧ nleft > 0 then
      match (if lidx = 0 then rfaBuildLine mem ptr nleft label
             else (lineBuf, ptr, nleft, label)) with
      | (lineBuf', ptr', nleft', label') =>
        match copyFromLine budget lineBuf' lidx [] with
        | (out, lidx') =>
          rfaGo mem fuel ptr' nleft' lidx' label' lineBuf' (budget - out.length)
            (acc ++ out)
    else (ptr, nleft, lidx, label, lineBuf, acc)

/-- `casper_tapcp_read_fpga_words_ascii`: fill up to `bytes` output
bytes of the hexdump rendering.  `lineBuf` is the static `line_buf`
content on entry (the pending partially-sent line). -/
def casper_tapcp_read_fpga_words_ascii (mem : Nat → Nat) (st : TapcpState)
    (lineBuf : List Nat) (bytes : Nat) : TapcpState × List Nat × List Nat :=
  match rfaGo mem (bytes + 1) st.ptr st.nleft st.lidx.toNat st.u32 lineBuf bytes [] with
  | (ptr, nleft, lidx, label, lineBuf', out) =>
    ({ st with ptr := ptr, nleft := nleft, lidx := (lidx : Int), u32 := label },
      lineBuf', out)

/-- The engine's read loop: call the producer with the successive
buffer sizes of the schedule, concatenating the outputs, and stop as
soon as a call returns fewer bytes than requested. -/
def runRead {σ : Type} (call : σ → Nat → σ × List Nat) : σ → List Nat → List Nat :=
  fun st ns =>
    match ns with
    | [] => []
    | n :: ns' =>
      match call st n with
      | (st', out) => if out.length < n then out else out ++ runRead call st' ns'

/-- The FPGA-words text producer as a runnable callback: the engine
state is the transfer state paired with the static line buffer. -/
def rfaCall (mem : Nat → Nat) (s : TapcpState × List Nat) (n : Nat) :
    (TapcpState × List Nat) × List Nat :=
  match casper_tapcp_read_fpga_words_ascii mem s.1 s.2 n with
  | (st', lb', out) => ((st', lb'), out)

/-- Parse a byte stream as big-endian 32-bit words (specification-side:
the wire format of OCTET-mode FPGA reads). -/
def parseBE32 : List Nat → List Nat
  | b0 :: b1 :: b2 :: b3 :: rest =>
    (((b0 * 256 + b1) * 256 + b2) * 256 + b3) :: parseBE32 rest
  | _ => []

/-- Split a byte list at every occurrence of the byte `d` (the
delimiter is dropped; a trailing delimiter yields a final empty
segment). -/
def splitByte (d : Nat) : List Nat → List (List Nat)
  | [] => [[]]
  | c :: t =>
    if c = d then [] :: splitByte d t
    else
      match splitByte d t with
      | [] => [[c]]
      | seg :: segs => (c :: seg) :: segs

/-- Specification-side parser for one TEXT-mode hexdump line, following
the spec's format description: after the 8-digit label and the `": "`
separator come space-separated groups of 8 hex digits, one 32-bit word
each.  An empty segment (as produced after a trailing newline) holds no
words. -/
def dumpLineWords (line : List Nat) : List Nat :=
  if line = [] then [] else (splitByte 32 (line.drop 10)).map hexListVal

/-- Specification-side extraction of the word sequence rendered by a
TEXT-mode FPGA read: split the output into newline-terminated lines and
parse each. -/
def asciiRenderedWords (out : List Nat) : List Nat :=
  ((splitByte 10 out).map dumpLineWords).flatten

/-- The 32-bit words of the FPGA region of `k` words starting at byte
address `ptr` (specification-side helper). -/
def fpgaWords (mem : Nat → Nat) (ptr k : Nat) : List Nat :=
  (List.range k).map fun i => mem (ptr + 4 * i) % 2 ^ 32

/-- The four big-endian wire bytes of a 32-bit word
(specification-side: the OCTET encoding of one FPGA word). -/
def beBytes (w : Nat) : List Nat :=
  [w >>> 24 % 256, w >>> 16 % 256, w >>> 8 % 256, w % 256]

/-- The eight uppercase hex digits of a 32-bit word, MSB first
(specification-side: what `u32_to_hex w 1` renders). -/
def hex8 (w : Nat) : List Nat :=
  [hexChar (w >>> 28 % 16), hexChar (w >>> 24 % 16), hexChar (w >>> 20 % 16),
   hexChar (w >>> 16 % 16), hexChar (w >>> 12 % 16), hexChar (w >>> 8 % 16),
   hexChar (w >>> 4 % 16), hexChar (w % 16)]

/-- Join character groups with single spaces (specification-side: the
word groups of one hexdump line). -/
def joinSp : List (List Nat) → List Nat
  | [] => []
  | [g] => g
  | g :: gs => g ++ 32 :: joinSp gs

/-- The complete TEXT rendering of a `k`-word FPGA region: lines of up
to four 8-digit words, each line prefixed with the 8-digit label and
`": "` and terminated by a newline, the label advancing by 16 per line
(specification-side description of the producer's full output; the
fuel argument dominates `k`). -/
def dumpLines (mem : Nat → Nat) : Nat → Nat → Nat → Nat → List Nat
  | 0, _, _, _ => []
  | fuel + 1, ptr, k, label =>
    if k = 0 then []
    else
      hex8 label ++ [58, 32] ++ joinSp ((fpgaWords mem ptr (min 4 k)).map hex8) ++
        [10] ++ dumpLines mem fuel (ptr + 4 * min 4 k) (k - min 4 k)
          ((label + 16) % 2 ^ 32)

/-- Specification-side description of the stores a binary write of
byte stream `bs` must perform: one big-endian word per complete group
of four bytes, at consecutive word addresses from `ptr`; a trailing
group of fewer than four bytes produces no store. -/
def beChunks : List Nat → Nat → List (Nat × Nat)
  | b0 :: b1 :: b2 :: b3 :: rest, ptr =>
    (ptr, ((b0 % 256 * 256 + b1 % 256) * 256 + b2 % 256) * 256 + b3 % 256) ::
      beChunks rest (ptr + 4)
  | _, _ => []

end Tapcp

namespace Tapcp

theorem hexGo_append (ds rest : List Nat) :
    ∀ (fuel a : Nat), ds.length ≤ fuel →
    (∀ c ∈ ds, isxdigit c = true) →
    (ds.length = fuel ∨ ∀ c ∈ rest.take 1, isxdigit c = false) →
    hexGo fuel (ds ++ rest) a =
      (rest, ds.foldl (fun x c => 16 * x + hexVal c) a) := by
  induction ds with
  | nil =>
    intro fuel a _ _ hstop
    cases fuel with
    | zero => simp [hexGo]
    | succ f =>
      rcases hstop with h | h
      · simp at h
      · cases rest with
        | nil => simp [hexGo]
        | cons c t =>
          have hc : isxdigit c = false := h c (by simp)
          simp [hexGo, hc]
  | cons d ds ih =>
    intro fuel a hlen hhex hstop
    cases fuel with
    | zero => simp at hlen
    | succ f =>
      have hd : isxdigit d = true := hhex d (by simp)
      have hrec := ih f (16 * a + hexVal d)
        (by simpa using hlen)
        (fun c hc => hhex c (by simp [hc]))
        (by
          rcases hstop with h | h
          · left; simpa using h
          · right; exact h)
      simp [hexGo, hd, hrec]

/-- C7: `hex_to_u32` consumes at most 8 consecutive hexadecimal digits
from the start of the string, accumulating them MSB-first (fewer than 8
digits yield the right-aligned value of just those digits), accepts
both uppercase and lowercase letters (an uppercase letter has the same
value as the corresponding lowercase letter), returns the unconsumed
suffix, and leaves the accumulator value unchanged on an empty input
string.  (A NULL pointer is not representable in the list model; the
empty list covers the empty-string case.) -/
theorem C7_hex_to_u32_spec :
    (∀ u : Nat, hex_to_u32 [] u = ([], u)) ∧
    (∀ ds rest : List Nat, ∀ u : Nat,
      ds ≠ [] ∨ rest ≠ [] →
      ds.length ≤ 8 →
      (∀ c ∈ ds, isxdigit c = true) →
      (ds.length = 8 ∨ ∀ c ∈ rest.take 1, isxdigit c = false ∧ c ≠ 0) →
      hex_to_u32 (ds ++ rest) u = (rest, hexListVal ds)) ∧
    (∀ c : Nat, 65 ≤ c → c ≤ 70 → hexVal c = hexVal (c + 32)) := by
  refine ⟨fun u => rfl, ?_, ?_⟩
  · intro ds rest u hne hlen hhex hstop
    have hstop' : ds.length = 8 ∨ ∀ c ∈ rest.take 1, isxdigit c = false := by
      rcases hstop with h | h
      · exact Or.inl h
      · exact Or.inr fun c hc => (h c hc).1
    cases ds with
    | nil =>
      cases rest with
      | nil =>
        rcases hne with h | h
        · exact absurd rfl h
        · exact absurd rfl h
      | cons c t =>
        rcases hstop with h | h
        · simp at h
        · have hc := h c (by simp)
          have : hexGo 8 (c :: t) 0 = (c :: t, 0) := by
            simp [hexGo, hc.1]
          simpa [hex_to_u32, hexListVal, hc.2] using this
    | cons d ds' =>
      have hd : isxdigit d = true := hhex d (by simp)
      have hd0 : d ≠ 0 := by
        intro h
        rw [h] at hd
        simp [isxdigit, isdigit] at hd
      have := hexGo_append (d :: ds') rest 8 0 hlen hhex hstop'
      simpa [hex_to_u32, hd0, hexListVal] using this
  · intro c h1 h2
    have hdig : isdigit c = false := by
      simp [isdigit]; omega
    have hdig' : isdigit (c + 32) = false := by
      simp [isdigit]; omega
    have hor : c ||| 32 = c + 32 := by
      have h32 : c % 64 ≥ 64 ∨ c % 64 < 64 := by omega
      -- uppercase letters are 65..70, so bit 5 (value 32) is clear
      interval_cases c <;> rfl
    have hor' : (c + 32) ||| 32 = c + 32 := by
      interval_cases c <;> rfl
    simp [hexVal, hdig, hdig', hor, hor']

/-- Witness for C7 at concrete inputs: parsing `"1F."` from accumulator
7 consumes the two digits and stops at the dot, and `'A'` has the same
hex value as `'a'`. -/
theorem C7_hex_to_u32_spec_witness :
    hex_to_u32 [49, 70, 46] 7 = ([46], hexListVal [49, 70]) ∧
    hexVal 65 = hexVal (65 + 32) := by
  constructor
  · exact C7_hex_to_u32_spec.2.1 [49, 70] [46] 7 (Or.inl (by decide))
      (by decide) (by decide) (Or.inr (by decide))
  · exact C7_hex_to_u32_spec.2.2 65 (by decide) (by decide)

theorem strchrIdx_getElem : ∀ {l : List Nat} {c i : Nat},
    strchrIdx l c = some i → l[i]? = some c := by
  intro l
  induction l with
  | nil => intro c i h; simp [strchrIdx] at h
  | cons x xs ih =>
    intro c i h
    by_cases hx : x = c
    · simp [strchrIdx, hx] at h
      subst h
      simp [hx]
    · simp [strchrIdx, hx] at h
      obtain ⟨j, hj, hji⟩ := h
      subst hji
      rw [List.getElem?_cons_succ]
      exact ih hj

theorem set_getElem_self : ∀ (l : List Nat) (i c : Nat),
    l[i]? = some c → l.set i c = l := by
  intro l
  induction l with
  | nil => intro i c h; simp at h
  | cons x xs ih =>
    intro i c h
    cases i with
    | zero => simp at h; simp [h]
    | succ j => simp at h; simp [ih j c h]

theorem restore_dot (l : List Nat) (i : Nat) (h : l[i]? = some 46) :
    (l.set i 0).set i 46 = l := by
  rw [List.set_set]
  exact set_getElem_self l i 46 h

/-- C10: `casper_tapcp_open_dev` always hands back the filename buffer
with its original contents: the NUL temporarily written over the first
dot is restored to `'.'` on every path out of the function (the
restoration happens before the device-not-found check, and every later
return leaves the buffer alone). -/
theorem C10_open_dev_restores_fname (env : Env) (st : TapcpState)
    (fname : List Nat) :
    (casper_tapcp_open_dev env st fname).2 = fname := by
  unfold casper_tapcp_open_dev
  cases hdot : strchrIdx (fname.drop (if listPrefix (strBytes "/dev/") fname then 5 else 0)) 46 with
  | none =>
    cases henv : env.find_dev (fname.drop (if listPrefix (strBytes "/dev/") fname then 5 else 0)) with
    | none => simp [hdot, henv]
    | some v => cases v with | mk base info => simp [hdot, henv]
  | some i =>
    have h46 := strchrIdx_getElem hdot
    have hres := restore_dot _ i h46
    cases henv : env.find_dev
        (((fname.drop (if listPrefix (strBytes "/dev/") fname then 5 else 0)).set i 0).take i) with
    | none => simp [hdot, henv, hres, List.take_append_drop]
    | some v =>
      cases v with
      | mk base info => simp [hdot, henv, hres, List.take_append_drop]

theorem wbBytes_cons (b : Nat) (bs : List Nat) (ptr : Nat) (nleft : Int)
    (u32 word : Nat) (acc : List (Nat × Nat)) (h0 : nleft ≠ 0) :
    wbBytes (b :: bs) ptr nleft u32 word acc =
      wbBytes bs (if (u32 + 1) % 2 ^ 32 % 4 = 0 then ptr + 4 else ptr)
        (if nleft > 0 then nleft - 1 else nleft) ((u32 + 1) % 2 ^ 32)
        ((word * 256 + b % 256) % 2 ^ 32)
        (if (u32 + 1) % 2 ^ 32 % 4 = 0 then
          acc ++ [(ptr, (word * 256 + b % 256) % 2 ^ 32)] else acc) := by
  simp only [wbBytes, h0, if_false]
  split <;> simp_all

theorem wbBytes_err : ∀ (bs : List Nat) (ptr : Nat) (nleft : Int)
    (u32 word : Nat) (acc : List (Nat × Nat)),
    (wbBytes bs ptr nleft u32 word acc).1 =
      decide (0 ≤ nleft ∧ nleft < (bs.length : Int)) := by
  intro bs
  induction bs with
  | nil =>
    intro ptr nleft u32 word acc
    symm
    rw [show (wbBytes [] ptr nleft u32 word acc).1 = false from rfl,
      decide_eq_false_iff_not]
    rintro ⟨h1, h2⟩
    simp at h2
    omega
  | cons b bs ih =>
    intro ptr nleft u32 word acc
    by_cases h0 : nleft = 0
    · subst h0
      symm
      rw [show (wbBytes (b :: bs) ptr 0 u32 word acc).1 = true from by
        simp [wbBytes], decide_eq_true_eq]
      refine ⟨le_refl 0, ?_⟩
      simp only [List.length_cons]
      push_cast
      omega
    · rw [wbBytes_cons b bs ptr nleft u32 word acc h0, ih]
      rw [decide_eq_decide]
      simp only [List.length_cons]
      by_cases hpos : nleft > 0
      · simp only [if_pos hpos]
        push_cast
        omega
      · simp only [if_neg hpos]
        push_cast
        omega

theorem wbBytes_nleft : ∀ (bs : List Nat) (ptr : Nat) (nleft : Int)
    (u32 word : Nat) (acc : List (Nat × Nat)),
    ¬ (0 ≤ nleft ∧ nleft < (bs.length : Int)) →
    (wbBytes bs ptr nleft u32 word acc).2.2.1 =
      if 0 ≤ nleft then nleft - bs.length else nleft := by
  intro bs
  induction bs with
  | nil =>
    intro ptr nleft u32 word acc _
    rw [show (wbBytes [] ptr nleft u32 word acc).2.2.1 = nleft from rfl]
    split <;> simp
  | cons b bs ih =>
    intro ptr nleft u32 word acc h
    by_cases h0 : nleft = 0
    · exfalso
      apply h
      subst h0
      refine ⟨le_refl 0, ?_⟩
      simp only [List.length_cons]
      push_cast
      omega
    · rw [wbBytes_cons b bs ptr nleft u32 word acc h0, ih]
      · simp only [List.length_cons] at h ⊢
        by_cases hpos : nleft > 0
        · simp only [if_pos hpos, if_pos (by omega : (0:Int) ≤ nleft - 1),
            if_pos (by omega : (0:Int) ≤ nleft)]
          push_cast
          omega
        · simp only [if_neg hpos, if_neg (by omega : ¬ (0:Int) ≤ nleft)]
      · simp only [List.length_cons] at h
        by_cases hpos : nleft > 0
        · simp only [if_pos hpos]
          push_cast at h ⊢
          omega
        · simp only [if_neg hpos]
          omega

theorem wbChain_err : ∀ (chain : List (List Nat)) (ptr : Nat) (nleft : Int)
    (u32 word : Nat) (acc : List (Nat × Nat)),
    (wbChain chain ptr nleft u32 word acc).1 =
      decide (0 ≤ nleft ∧ nleft < ((chain.map List.length).sum : Int)) := by
  intro chain
  induction chain with
  | nil =>
    intro ptr nleft u32 word acc
    symm
    rw [show (wbChain [] ptr nleft u32 word acc).1 = false from rfl,
      decide_eq_false_iff_not]
    rintro ⟨h1, h2⟩
    simp at h2
    omega
  | cons bs rest ih =>
    intro ptr nleft u32 word acc
    have hb := wbBytes_err bs ptr nleft u32 word acc
    rw [wbChain]
    rcases hw : wbBytes bs ptr nleft u32 word acc with ⟨err, ptr', nleft', u32', word', acc'⟩
    rw [hw] at hb
    cases err with
    | true =>
      have hP : (0 ≤ nleft ∧ nleft < (bs.length : Int)) := by
        simpa using hb.symm
      simp only []
      symm
      rw [decide_eq_true_eq]
      refine ⟨hP.1, ?_⟩
      have h2 := hP.2
      rw [List.map_cons, List.sum_cons, Nat.cast_add]
      have : (0 : Int) ≤ ((rest.map List.length).sum : Int) := by positivity
      omega
    | false =>
      have herr : ¬ (0 ≤ nleft ∧ nleft < (bs.length : Int)) := by
        simpa using hb.symm
      have hnl := wbBytes_nleft bs ptr nleft u32 word acc herr
      rw [hw] at hnl
      simp only [] at hnl
      simp only []
      rw [ih, decide_eq_decide]
      rw [List.map_cons, List.sum_cons, Nat.cast_add]
      by_cases hpos : 0 ≤ nleft
      · rw [hnl, if_pos hpos]
        have : (0 : Int) ≤ ((rest.map List.length).sum : Int) := by positivity
        omega
      · rw [hnl, if_neg hpos]
        have : (0 : Int) ≤ ((rest.map List.length).sum : Int) := by positivity
        omega

/-- C1 (amended): a write-consumer call returns `0` when it succeeds —
the byte counter `tot_len` that the C functions declare is never
incremented, so the number of consumed bytes is not reported — and
`-1` exactly when a fatal error occurs.  For the binary consumer the
error is characterized exactly: it occurs iff the byte bound is
exceeded, i.e. `0 ≤ nleft < total chain length`; the ASCII consumer
likewise only ever returns `0` or `-1`. -/
theorem C1_write_consumer_return_amended :
    (∀ (st : TapcpState) (word0 : Nat) (chain : List (List Nat)),
      (casper_tapcp_write_fpga_words_binary st word0 chain).1 =
        if 0 ≤ st.nleft ∧ st.nleft < ((chain.map List.length).sum : Int)
        then -1 else 0) ∧
    (∀ (st : TapcpState) (lineBuf : List Nat) (chain : List (List Nat)),
      (casper_tapcp_write_fpga_words_ascii st lineBuf chain).1 = 0 ∨
      (casper_tapcp_write_fpga_words_ascii st lineBuf chain).1 = -1) := by
  constructor
  · intro st word0 chain
    unfold casper_tapcp_write_fpga_words_binary
    have h := wbChain_err chain st.ptr st.nleft st.u32 word0 []
    rcases hw : wbChain chain st.ptr st.nleft st.u32 word0 [] with
      ⟨err, ptr, nleft, u32, word, acc⟩
    rw [hw] at h
    simp only [] at h
    cases err with
    | true =>
      have hP : (0 ≤ st.nleft ∧ st.nleft < ((chain.map List.length).sum : Int)) := by
        simpa using h.symm
      rw [if_pos hP]
      rfl
    | false =>
      have hP : ¬ (0 ≤ st.nleft ∧ st.nleft < ((chain.map List.length).sum : Int)) := by
        simpa using h.symm
      rw [if_neg hP]
      rfl
  · intro st lineBuf chain
    unfold casper_tapcp_write_fpga_words_ascii
    rcases waChain chain st.ptr st.nleft st.lidx st.u32 lineBuf [] with
      ⟨err, ptr, nleft, lidx, flag, buf, acc⟩
    cases err <;> simp

/-- C1 counterexample: a successful binary-write call on a chain of
four bytes consumes all four bytes — the corresponding word store to
the cursor is performed — yet returns 0 rather than 4. -/
theorem C1_counterexample :
    (casper_tapcp_write_fpga_words_binary
      { write := true, binary := true, ptr := 0, nleft := -1, lidx := 0, u32 := 0 }
      0 [[1, 2, 3, 4]]).2.2.2 = [(0, 16909060)] ∧
    (casper_tapcp_write_fpga_words_binary
      { write := true, binary := true, ptr := 0, nleft := -1, lidx := 0, u32 := 0 }
      0 [[1, 2, 3, 4]]).1 ≠ 4 := by
  constructor
  · decide
  · decide

theorem beChunks_fst : ∀ (bs : List Nat) (p : Nat),
    (beChunks bs p).map Prod.fst =
      (List.range (bs.length / 4)).map (fun i => p + 4 * i)
  | [], p => by simp [beChunks]
  | [b0], p => by simp [beChunks]
  | [b0, b1], p => by simp [beChunks]
  | [b0, b1, b2], p => by simp [beChunks]
  | b0 :: b1 :: b2 :: b3 :: rest, p => by
    have ih := beChunks_fst rest (p + 4)
    simp only [beChunks, List.map_cons, ih, List.length_cons]
    rw [show (rest.length + 1 + 1 + 1 + 1) / 4 = rest.length / 4 + 1 by omega,
      List.range_succ_eq_map]
    simp only [List.map_cons, List.map_map, Nat.mul_zero, Nat.add_zero,
      List.cons.injEq]
    refine ⟨trivial, ?_⟩
    apply List.map_congr_left
    intro i _
    simp only [Function.comp_apply]
    omega

theorem wbBytes_four (b0 b1 b2 b3 : Nat) (rest : List Nat) (ptr : Nat)
    (nleft : Int) (u32 word : Nat) (acc : List (Nat × Nat))
    (hu : u32 % 4 = 0) (hb : nleft = -1 ∨ 4 ≤ nleft) :
    wbBytes (b0 :: b1 :: b2 :: b3 :: rest) ptr nleft u32 word acc =
      wbBytes rest (ptr + 4) (if nleft > 0 then nleft - 4 else nleft)
        ((u32 + 4) % 2 ^ 32)
        (((((word * 256 + b0 % 256) % 2 ^ 32 * 256 + b1 % 256) % 2 ^ 32 * 256 +
            b2 % 256) % 2 ^ 32 * 256 + b3 % 256) % 2 ^ 32)
        (acc ++ [(ptr,
          ((((word * 256 + b0 % 256) % 2 ^ 32 * 256 + b1 % 256) % 2 ^ 32 * 256 +
            b2 % 256) % 2 ^ 32 * 256 + b3 % 256) % 2 ^ 32)]) := by
  have hn0 : nleft ≠ 0 := by rcases hb with h | h <;> omega
  have hn1 : (if nleft > 0 then nleft - 1 else nleft) ≠ 0 := by
    rcases hb with h | h <;> (split_ifs <;> omega)
  have hn2 : (if nleft > 0 then nleft - 2 else nleft) ≠ 0 := by
    rcases hb with h | h <;> (split_ifs <;> omega)
  have hn3 : (if nleft > 0 then nleft - 3 else nleft) ≠ 0 := by
    rcases hb with h | h <;> (split_ifs <;> omega)
  have hc1 : ¬ (u32 + 1) % 2 ^ 32 % 4 = 0 := by omega
  have hc2 : ¬ ((u32 + 1) % 2 ^ 32 + 1) % 2 ^ 32 % 4 = 0 := by omega
  have hc3 : ¬ (((u32 + 1) % 2 ^ 32 + 1) % 2 ^ 32 + 1) % 2 ^ 32 % 4 = 0 := by omega
  have hc4 : ((((u32 + 1) % 2 ^ 32 + 1) % 2 ^ 32 + 1) % 2 ^ 32 + 1) % 2 ^ 32 % 4 = 0 := by
    omega
  rw [wbBytes_cons b0 _ ptr nleft u32 word acc hn0]
  simp only [if_neg hc1]
  rw [wbBytes_cons b1 _ _ _ _ _ _ hn1]
  simp only [if_neg hc2]
  rw [show (if (if nleft > 0 then nleft - 1 else nleft) > 0 then
      (if nleft > 0 then nleft - 1 else nleft) - 1
    else (if nleft > 0 then nleft - 1 else nleft)) =
    (if nleft > 0 then nleft - 2 else nleft) from by split_ifs <;> omega]
  rw [wbBytes_cons b2 _ _ _ _ _ _ hn2]
  simp only [if_neg hc3]
  rw [show (if (if nleft > 0 then nleft - 2 else nleft) > 0 then
      (if nleft > 0 then nleft - 2 else nleft) - 1
    else (if nleft > 0 then nleft - 2 else nleft)) =
    (if nleft > 0 then nleft - 3 else nleft) from by split_ifs <;> omega]
  rw [wbBytes_cons b3 _ _ _ _ _ _ hn3]
  simp only [if_pos hc4]
  rw [show (if (if nleft > 0 then nleft - 3 else nleft) > 0 then
      (if nleft > 0 then nleft - 3 else nleft) - 1
    else (if nleft > 0 then nleft - 3 else nleft)) =
    (if nleft > 0 then nleft - 4 else nleft) from by split_ifs <;> omega]
  rw [show ((((u32 + 1) % 2 ^ 32 + 1) % 2 ^ 32 + 1) % 2 ^ 32 + 1) % 2 ^ 32 =
    (u32 + 4) % 2 ^ 32 from by omega]

theorem wbBytes_writes : ∀ (bs : List Nat) (ptr : Nat) (nleft : Int)
    (u32 word : Nat) (acc : List (Nat × Nat)),
    u32 % 4 = 0 →
    (nleft = -1 ∨ (bs.length : Int) ≤ nleft) →
    (wbBytes bs ptr nleft u32 word acc).1 = false ∧
    (wbBytes bs ptr nleft u32 word acc).2.2.2.2.2 = acc ++ beChunks bs ptr
  | [], ptr, nleft, u32, word, acc, hu, hb => by simp [wbBytes, beChunks]
  | [b0], ptr, nleft, u32, word, acc, hu, hb => by
    have hn0 : nleft ≠ 0 := by
      rcases hb with h | h
      · omega
      · simp at h; omega
    rw [wbBytes_cons b0 [] ptr nleft u32 word acc hn0]
    simp only [if_neg (show ¬ (u32 + 1) % 2 ^ 32 % 4 = 0 by omega)]
    simp [wbBytes, beChunks]
  | [b0, b1], ptr, nleft, u32, word, acc, hu, hb => by
    have hlen : nleft = -1 ∨ (2 : Int) ≤ nleft := by
      rcases hb with h | h
      · exact Or.inl h
      · simp at h; omega
    have hn0 : nleft ≠ 0 := by rcases hlen with h | h <;> omega
    have hn1 : (if nleft > 0 then nleft - 1 else nleft) ≠ 0 := by
      rcases hlen with h | h <;> (split_ifs <;> omega)
    rw [wbBytes_cons b0 _ ptr nleft u32 word acc hn0]
    simp only [if_neg (show ¬ (u32 + 1) % 2 ^ 32 % 4 = 0 by omega)]
    rw [wbBytes_cons b1 _ _ _ _ _ _ hn1]
    simp only [if_neg (show ¬ ((u32 + 1) % 2 ^ 32 + 1) % 2 ^ 32 % 4 = 0 by omega)]
    simp [wbBytes, beChunks]
  | [b0, b1, b2], ptr, nleft, u32, word, acc, hu, hb => by
    have hlen : nleft = -1 ∨ (3 : Int) ≤ nleft := by
      rcases hb with h | h
      · exact Or.inl h
      · simp at h; omega
    have hn0 : nleft ≠ 0 := by rcases hlen with h | h <;> omega
    have hn1 : (if nleft > 0 then nleft - 1 else nleft) ≠ 0 := by
      rcases hlen with h | h <;> (split_ifs <;> omega)
    have hn2 : (if nleft > 0 then nleft - 2 else nleft) ≠ 0 := by
      rcases hlen with h | h <;> (split_ifs <;> omega)
    rw [wbBytes_cons b0 _ ptr nleft u32 word acc hn0]
    simp only [if_neg (show ¬ (u32 + 1) % 2 ^ 32 % 4 = 0 by omega)]
    rw [wbBytes_cons b1 _ _ _ _ _ _ hn1]
    simp only [if_neg (show ¬ ((u32 + 1) % 2 ^ 32 + 1) % 2 ^ 32 % 4 = 0 by omega)]
    rw [show (if (if nleft > 0 then nleft - 1 else nleft) > 0 then
        (if nleft > 0 then nleft - 1 else nleft) - 1
      else (if nleft > 0 then nleft - 1 else nleft)) =
      (if nleft > 0 then nleft - 2 else nleft) from by split_ifs <;> omega]
    rw [wbBytes_cons b2 _ _ _ _ _ _ hn2]
    simp only [if_neg (show ¬ (((u32 + 1) % 2 ^ 32 + 1) % 2 ^ 32 + 1) % 2 ^ 32 % 4 = 0
      by omega)]
    simp [wbBytes, beChunks]
  | b0 :: b1 :: b2 :: b3 :: rest, ptr, nleft, u32, word, acc, hu, hb => by
    have hb4 : nleft = -1 ∨ (4 : Int) ≤ nleft := by
      rcases hb with h | h
      · exact Or.inl h
      · right
        simp only [List.length_cons] at h
        push_cast at h
        omega
    rw [wbBytes_four b0 b1 b2 b3 rest ptr nleft u32 word acc hu hb4]
    have hrec := wbBytes_writes rest (ptr + 4) (if nleft > 0 then nleft - 4 else nleft)
      ((u32 + 4) % 2 ^ 32)
      (((((word * 256 + b0 % 256) % 2 ^ 32 * 256 + b1 % 256) % 2 ^ 32 * 256 +
          b2 % 256) % 2 ^ 32 * 256 + b3 % 256) % 2 ^ 32)
      (acc ++ [(ptr,
        ((((word * 256 + b0 % 256) % 2 ^ 32 * 256 + b1 % 256) % 2 ^ 32 * 256 +
          b2 % 256) % 2 ^ 32 * 256 + b3 % 256) % 2 ^ 32)])
      (by omega)
      (by
        rcases hb with h | h
        · left; split_ifs <;> omega
        · right
          simp only [List.length_cons] at h ⊢
          push_cast at h ⊢
          split_ifs <;> omega)
    refine ⟨hrec.1, ?_⟩
    rw [hrec.2]
    have hword : ((((word * 256 + b0 % 256) % 2 ^ 32 * 256 + b1 % 256) % 2 ^ 32 * 256 +
        b2 % 256) % 2 ^ 32 * 256 + b3 % 256) % 2 ^ 32 =
        ((b0 % 256 * 256 + b1 % 256) * 256 + b2 % 256) * 256 + b3 % 256 := by
      omega
    rw [hword]
    simp [beChunks]

theorem wbBytes_append : ∀ (xs ys : List Nat) (ptr : Nat) (nleft : Int)
    (u32 word : Nat) (acc : List (Nat × Nat)),
    wbBytes (xs ++ ys) ptr nleft u32 word acc =
      (match wbBytes xs ptr nleft u32 word acc with
       | (true, ptr1, nleft1, u321, word1, acc1) => (true, ptr1, nleft1, u321, word1, acc1)
       | (false, ptr1, nleft1, u321, word1, acc1) => wbBytes ys ptr1 nleft1 u321 word1 acc1) := by
  intro xs
  induction xs with
  | nil => intro ys ptr nleft u32 word acc; rfl
  | cons b bs ih =>
    intro ys ptr nleft u32 word acc
    by_cases h0 : nleft = 0
    · subst h0
      rw [show wbBytes ((b :: bs) ++ ys) ptr 0 u32 word acc =
          (true, ptr, 0, u32, word, acc) from by simp [wbBytes],
        show wbBytes (b :: bs) ptr 0 u32 word acc =
          (true, ptr, 0, u32, word, acc) from by simp [wbBytes]]
    · rw [show ((b :: bs) ++ ys) = b :: (bs ++ ys) from rfl,
        wbBytes_cons b (bs ++ ys) ptr nleft u32 word acc h0,
        wbBytes_cons b bs ptr nleft u32 word acc h0]
      exact ih ys _ _ _ _ _

theorem wbChain_flatten : ∀ (chain : List (List Nat)) (ptr : Nat) (nleft : Int)
    (u32 word : Nat) (acc : List (Nat × Nat)),
    wbChain chain ptr nleft u32 word acc =
      wbBytes chain.flatten ptr nleft u32 word acc := by
  intro chain
  induction chain with
  | nil => intro ptr nleft u32 word acc; rfl
  | cons bs rest ih =>
    intro ptr nleft u32 word acc
    rw [wbChain, show (bs :: rest).flatten = bs ++ rest.flatten from rfl,
      wbBytes_append]
    rcases hw : wbBytes bs ptr nleft u32 word acc with
      ⟨err, ptr1, nleft1, u321, word1, acc1⟩
    cases err with
    | true => rfl
    | false => exact ih _ _ _ _ _

/-- C8: a binary PUT whose payload length `n` is not a multiple of four
stores exactly `n / 4` complete big-endian words at consecutive word
addresses starting at the cursor; the 1-3 trailing accumulated bytes
are never stored, and no store touches any address other than
`cursor`, `cursor + 4`, ..., `cursor + 4 * (n / 4 - 1)`. -/
theorem C8_binary_write_partial_word (st : TapcpState) (word0 : Nat)
    (chain : List (List Nat))
    (hu : st.u32 = 0)
    (hb : st.nleft = -1 ∨ (chain.flatten.length : Int) ≤ st.nleft)
    (_hn : chain.flatten.length % 4 ≠ 0) :
    (casper_tapcp_write_fpga_words_binary st word0 chain).1 = 0 ∧
    (casper_tapcp_write_fpga_words_binary st word0 chain).2.2.2 =
      beChunks chain.flatten st.ptr ∧
    ((casper_tapcp_write_fpga_words_binary st word0 chain).2.2.2).map Prod.fst =
      (List.range (chain.flatten.length / 4)).map (fun i => st.ptr + 4 * i) := by
  have h := wbBytes_writes chain.flatten st.ptr st.nleft st.u32 word0 []
    (by rw [hu]) hb
  unfold casper_tapcp_write_fpga_words_binary
  rw [wbChain_flatten]
  rcases hw : wbBytes chain.flatten st.ptr st.nleft st.u32 word0 [] with
    ⟨err, ptr1, nleft1, u321, word1, acc1⟩
  rw [hw] at h
  simp only [List.nil_append] at h
  rcases h with ⟨herr, hacc⟩
  subst herr
  subst hacc
  refine ⟨rfl, rfl, ?_⟩
  exact beChunks_fst chain.flatten st.ptr

/-- Witness for C8: a 7-byte payload split over two chain fragments
(so `n = 7`, not a multiple of 4) stores exactly one word, the
big-endian value of the first four bytes, at the cursor. -/
theorem C8_binary_write_partial_word_witness :
    (casper_tapcp_write_fpga_words_binary
      { write := true, binary := true, ptr := 0, nleft := -1, lidx := 0, u32 := 0 }
      0 [[1, 2, 3], [4, 5, 6, 7]]).1 = 0 ∧
    (casper_tapcp_write_fpga_words_binary
      { write := true, binary := true, ptr := 0, nleft := -1, lidx := 0, u32 := 0 }
      0 [[1, 2, 3], [4, 5, 6, 7]]).2.2.2 = [(0, 16909060)] := by
  have h := C8_binary_write_partial_word
    { write := true, binary := true, ptr := 0, nleft := -1, lidx := 0, u32 := 0 }
    0 [[1, 2, 3], [4, 5, 6, 7]] rfl (Or.inl rfl) (by decide)
  refine ⟨h.1, ?_⟩
  rw [h.2.1]
  decide

/-- C6: feeding the ASCII write consumer any of the three
spec-equivalent inputs `"label: 00 11 22 33\n"`,
`"00000000 00000011 00000022 00000033\n"` and
`"00000000000000110000002233\n"` (from the same initial state, with the
same cursor) performs the same four word stores `0x00, 0x11, 0x22,
0x33` at the same four consecutive word addresses. -/
theorem C6_ascii_write_equivalent_inputs (cursor : Nat) :
    (casper_tapcp_write_fpga_words_ascii
        { write := true, binary := false, ptr := cursor, nleft := 16, lidx := 0, u32 := 0 }
        [] [[108, 97, 98, 101, 108, 58, 32, 48, 48, 32, 49, 49, 32, 50, 50, 32, 51, 51, 10]]).2.2.2 =
      [(cursor, 0), (cursor + 4, 17), (cursor + 8, 34), (cursor + 12, 51)] ∧
    (casper_tapcp_write_fpga_words_ascii
        { write := true, binary := false, ptr := cursor, nleft := 16, lidx := 0, u32 := 0 }
        [] [[48, 48, 48, 48, 48, 48, 48, 48, 32, 48, 48, 48, 48, 48, 48, 49, 49, 32, 48, 48, 48, 48, 48, 48, 50, 50, 32, 48, 48, 48, 48, 48, 48, 51, 51, 10]]).2.2.2 =
      [(cursor, 0), (cursor + 4, 17), (cursor + 8, 34), (cursor + 12, 51)] ∧
    (casper_tapcp_write_fpga_words_ascii
        { write := true, binary := false, ptr := cursor, nleft := 16, lidx := 0, u32 := 0 }
        [] [[48, 48, 48, 48, 48, 48, 48, 48, 48, 48, 48, 48, 48, 48, 49, 49, 48, 48, 48, 48, 48, 48, 50, 50, 51, 51, 10]]).2.2.2 =
      [(cursor, 0), (cursor + 4, 17), (cursor + 8, 34), (cursor + 12, 51)] := by
  refine ⟨?_, ?_, ?_⟩ <;>
    simp [casper_tapcp_write_fpga_words_ascii, waChain, waBytes, scanLine, hex_to_u32,
      hexGo, isspace, isxdigit, isdigit, hexVal]

/-- C2: the TEXT-mode FPGA read producer is not schedule independent.
Reading a one-word region (19 bytes of hexdump output) with per-call
buffer sizes of 19 delivers the whole line, while buffer sizes of 10
deliver only the first 10 bytes: once `nleft` reaches zero the pending
tail of the final line is dropped, and the second call's short return
of 0 bytes is taken as end-of-transfer with 9 bytes undelivered.  This
contradicts the chunk-independence the producer is meant to have (its
line-splitting machinery exists precisely to continue lines across
calls), so it is a code bug rather than an intended behaviour. -/
theorem C2_schedule_dependence :
    runRead (rfaCall fun _ => 16909060)
        ({ write := false, binary := false, ptr := 0, nleft := 4, lidx := 0, u32 := 0 }, [])
        [10, 10] =
      (runRead (rfaCall fun _ => 16909060)
        ({ write := false, binary := false, ptr := 0, nleft := 4, lidx := 0, u32 := 0 }, [])
        [19, 19]).take 10 ∧
    runRead (rfaCall fun _ => 16909060)
        ({ write := false, binary := false, ptr := 0, nleft := 4, lidx := 0, u32 := 0 }, [])
        [10, 10] ≠
      runRead (rfaCall fun _ => 16909060)
        ({ write := false, binary := false, ptr := 0, nleft := 4, lidx := 0, u32 := 0 }, [])
        [19, 19] := by
  constructor
  · decide
  · decide

theorem hex_to_u32_parse (ds rest : List Nat) (u : Nat)
    (hne : ds ≠ []) (hlen : ds.length ≤ 8)
    (hhex : ∀ c ∈ ds, isxdigit c = true)
    (hstop : ds.length = 8 ∨ ∀ c ∈ rest.take 1, isxdigit c = false) :
    hex_to_u32 (ds ++ rest) u = (rest, hexListVal ds) := by
  cases ds with
  | nil => exact absurd rfl hne
  | cons d ds' =>
    have hd : isxdigit d = true := hhex d (by simp)
    have hd0 : d ≠ 0 := by
      intro h
      rw [h] at hd
      simp [isxdigit, isdigit] at hd
    have := hexGo_append (d :: ds') rest 8 0 hlen hhex hstop
    simpa [hex_to_u32, hd0, hexListVal] using this

theorem listPrefix_append : ∀ (p r : List Nat), listPrefix p (p ++ r) = true
  | [], _ => rfl
  | x :: xs, r => by simp [listPrefix, listPrefix_append xs r]

theorem strchrIdx_append (c : Nat) : ∀ (name t : List Nat), c ∉ name →
    strchrIdx (name ++ c :: t) c = some name.length
  | [], t, _ => by simp [strchrIdx]
  | x :: xs, t, h => by
    have hx : ¬ x = c := by
      intro e
      exact h (by simp [e])
    simp [strchrIdx, hx, strchrIdx_append c xs t (fun hm => h (by simp [hm]))]

theorem take_set : ∀ (l : List Nat) (i a : Nat), (l.set i a).take i = l.take i
  | [], _, _ => by simp
  | _ :: _, 0, _ => by simp
  | x :: xs, i + 1, a => by simp [take_set xs i a]

theorem hexVal_lt (c : Nat) (h : isxdigit c = true) : hexVal c < 16 := by
  have h' : ((48 ≤ c ∧ c ≤ 57) ∨ (65 ≤ c ∧ c ≤ 70)) ∨ (97 ≤ c ∧ c ≤ 102) := by
    simpa [isxdigit, isdigit, Bool.or_eq_true, decide_eq_true_eq] using h
  rcases h' with (⟨h1, h2⟩ | ⟨h1, h2⟩) | ⟨h1, h2⟩ <;> (interval_cases c <;> decide)

theorem hexListVal_foldl_lt : ∀ (ds : List Nat) (a : Nat),
    (∀ c ∈ ds, isxdigit c = true) →
    ds.foldl (fun x c => 16 * x + hexVal c) a < 16 ^ ds.length * (a + 1)
  | [], a, _ => by simp
  | d :: ds, a, h => by
    have hd := hexVal_lt d (h d (by simp))
    have ih := hexListVal_foldl_lt ds (16 * a + hexVal d)
      (fun c hc => h c (by simp [hc]))
    simp only [List.foldl_cons, List.length_cons]
    calc List.foldl (fun x c => 16 * x + hexVal c) (16 * a + hexVal d) ds
        < 16 ^ ds.length * (16 * a + hexVal d + 1) := ih
      _ ≤ 16 ^ ds.length * (16 * (a + 1)) := by
          apply Nat.mul_le_mul_left
          omega
      _ = 16 ^ (ds.length + 1) * (a + 1) := by ring

theorem hexListVal_lt (ds : List Nat) (hlen : ds.length ≤ 8)
    (hhex : ∀ c ∈ ds, isxdigit c = true) : hexListVal ds < 2 ^ 32 := by
  have h := hexListVal_foldl_lt ds 0 hhex
  have h2 : hexListVal ds < 16 ^ ds.length := by
    simpa [hexListVal] using h
  calc hexListVal ds < 16 ^ ds.length := h2
    _ ≤ 16 ^ 8 := Nat.pow_le_pow_right (by norm_num) hlen
    _ = 2 ^ 32 := by norm_num

theorem open_dev_split (env : Env) (st : TapcpState) (name rest2 : List Nat)
    (hname : 46 ∉ name) :
    (casper_tapcp_open_dev env st (strBytes "/dev/" ++ (name ++ 46 :: rest2))).1 =
      (match env.find_dev name with
       | none => none
       | some (base, info) => openDevTail st base info (some rest2)) := by
  have hdrop : (strBytes "/dev/" ++ (name ++ 46 :: rest2)).drop 5 = name ++ 46 :: rest2 := by
    simp [strBytes]
  have htake : ((name ++ 46 :: rest2).set name.length 0).take name.length = name := by
    rw [take_set]
    exact List.take_left name (46 :: rest2)
  have hdrop2 : (name ++ 46 :: rest2).drop (name.length + 1) = rest2 := by
    simp
  unfold casper_tapcp_open_dev
  rw [if_pos (listPrefix_append (strBytes "/dev/") (name ++ 46 :: rest2))]
  simp only [hdrop, strchrIdx_append 46 name rest2 hname, htake, hdrop2]
  cases henv : env.find_dev name with
  | none => rfl
  | some v => cases v with | mk base info => rfl

theorem hex_to_u32_parse_all (ds : List Nat) (u : Nat)
    (hne : ds ≠ []) (hlen : ds.length ≤ 8)
    (hhex : ∀ c ∈ ds, isxdigit c = true) :
    hex_to_u32 ds u = ([], hexListVal ds) := by
  have h := hex_to_u32_parse ds [] u hne hlen hhex (Or.inr (by simp))
  simpa using h

/-- C3 (amended): consider a GET open of a catalog device whose
descriptor length is `info.length` bytes, i.e. `L = info.length / 4`
words, with a word offset of 1-8 hex digits of value `OFF`.  With an
explicit word count of 1-8 hex digits of non-zero value `LEN`, the
open fails exactly when `(OFF + LEN) mod 2^32 > L` (32-bit addition,
which can wrap) and succeeds otherwise.  With `LEN` absent, the length
defaults to the unsigned 32-bit difference `(L - OFF) mod 2^32` and
the open fails exactly when `OFF = L`; in particular `OFF > L` is
accepted (the wrapped default is a huge positive count and the bounds
check `OFF + LEN > L` also wraps back to `L`), rather than being
rejected for a non-positive remaining length as the original claim
states. -/
theorem C3_open_dev_bounds_amended (env : Env) (st : TapcpState)
    (name offDs lenDs : List Nat) (base : Nat) (info : DevInfo)
    (hw : st.write = false)
    (hname : 46 ∉ name)
    (hfind : env.find_dev name = some (base, info))
    (hinfo : info.length < 2 ^ 32)
    (hoff : offDs ≠ []) (hoffLen : offDs.length ≤ 8)
    (hoffHex : ∀ c ∈ offDs, isxdigit c = true)
    (hlen : lenDs ≠ []) (hlenLen : lenDs.length ≤ 8)
    (hlenHex : ∀ c ∈ lenDs, isxdigit c = true)
    (hlenNZ : hexListVal lenDs ≠ 0) :
    ((casper_tapcp_open_dev env st
        (strBytes "/dev/" ++ (name ++ 46 :: (offDs ++ 46 :: lenDs)))).1 = none ↔
      (hexListVal offDs + hexListVal lenDs) % 2 ^ 32 > info.length / 4) ∧
    ((casper_tapcp_open_dev env st
        (strBytes "/dev/" ++ (name ++ 46 :: offDs))).1 = none ↔
      hexListVal offDs = info.length / 4) := by
  have hOFF : hexListVal offDs < 2 ^ 32 := hexListVal_lt offDs hoffLen hoffHex
  have hL : info.length / 4 < 2 ^ 32 :=
    lt_of_le_of_lt (Nat.div_le_self _ _) hinfo
  constructor
  · rw [open_dev_split env st name (offDs ++ 46 :: lenDs) hname, hfind]
    simp only []
    unfold openDevTail
    rw [if_neg (by simp [hw])]
    simp only []
    rw [if_neg (show ¬ offDs ++ 46 :: lenDs = [] by simp)]
    rw [hex_to_u32_parse offDs (46 :: lenDs) 0 hoff hoffLen hoffHex
      (Or.inr (by
        intro c hc
        simp only [List.take_succ_cons, List.take_zero, List.mem_singleton] at hc
        subst hc
        decide))]
    rw [if_pos (show st.write = false ∧ ¬ (46 :: lenDs) = [] from ⟨hw, by simp⟩)]
    rw [show (46 :: lenDs).drop 1 = lenDs from rfl]
    rw [hex_to_u32_parse_all lenDs 0 hlen hlenLen hlenHex]
    simp only []
    rw [if_neg hlenNZ]
    rw [if_neg (show ¬ (hexListVal lenDs = 0 ∧ hexListVal lenDs = 0) from
      fun h => hlenNZ h.1)]
    by_cases hX : (hexListVal offDs + hexListVal lenDs) % 2 ^ 32 > info.length / 4
    · rw [if_pos ⟨hw, hX⟩]
      exact iff_of_true rfl hX
    · rw [if_neg (fun h => hX h.2)]
      split_ifs <;> exact iff_of_false (by simp) hX
  · rw [open_dev_split env st name offDs hname, hfind]
    simp only []
    unfold openDevTail
    rw [if_neg (by simp [hw])]
    simp only []
    rw [if_neg hoff]
    rw [hex_to_u32_parse_all offDs 0 hoff hoffLen hoffHex]
    rw [if_neg (show ¬ (st.write = false ∧ ¬ ([] : List Nat) = []) from
      fun h => h.2 rfl)]
    simp only []
    simp only [if_true, true_and]
    by_cases hz : (info.length / 4 + 2 ^ 32 - hexListVal offDs) % 2 ^ 32 = 0
    · rw [if_pos hz]
      have heq : hexListVal offDs = info.length / 4 := by omega
      exact iff_of_true rfl heq
    · rw [if_neg hz]
      have hbc : ¬ (st.write = false ∧
          (hexListVal offDs +
            (info.length / 4 + 2 ^ 32 - hexListVal offDs) % 2 ^ 32) % 2 ^ 32 >
            info.length / 4) := by
        rintro ⟨-, hgt⟩
        omega
      rw [if_neg hbc]
      have hne : ¬ hexListVal offDs = info.length / 4 := by omega
      split_ifs <;> exact iff_of_false (by simp) hne

/-- C3 counterexample: a device of `L = 4` words (16 bytes) opened for
GET as `/dev/x.a` — word offset `OFF = 0xa = 10 > L`, `LEN` absent.
The claim requires open failure (`L - OFF` is not positive), but the
code's unsigned 32-bit default length wraps around and the open
succeeds. -/
theorem C3_counterexample :
    ((casper_tapcp_open_dev
      { find_dev := fun n => if n = [120] then some (0, ⟨0, 16⟩) else none,
        helpAddr := 0, coreInfoAddr := 0, coreInfoLen := 0,
        fpgaBase := 0, fpgaNBytes := 0 }
      { write := false, binary := true, ptr := 0, nleft := 0, lidx := 0, u32 := 0 }
      [47, 100, 101, 118, 47, 120, 46, 97]).1).isSome = true := by
  decide

/-- Witness for C3 (amended) at a concrete catalog: device `x` of 4
words; `GET /dev/x.1.3` fits exactly and opens successfully, while
`GET /dev/x.4` (offset equal to the device length, no count) fails. -/
theorem C3_open_dev_bounds_amended_witness :
    (casper_tapcp_open_dev
      { find_dev := fun n => if n = [120] then some (0, ⟨0, 16⟩) else none,
        helpAddr := 0, coreInfoAddr := 0, coreInfoLen := 0,
        fpgaBase := 0, fpgaNBytes := 0 }
      { write := false, binary := true, ptr := 0, nleft := 0, lidx := 0, u32 := 0 }
      (strBytes "/dev/" ++ ([120] ++ 46 :: ([49] ++ 46 :: [51])))).1 ≠ none ∧
    (casper_tapcp_open_dev
      { find_dev := fun n => if n = [120] then some (0, ⟨0, 16⟩) else none,
        helpAddr := 0, coreInfoAddr := 0, coreInfoLen := 0,
        fpgaBase := 0, fpgaNBytes := 0 }
      { write := false, binary := true, ptr := 0, nleft := 0, lidx := 0, u32 := 0 }
      (strBytes "/dev/" ++ ([120] ++ 46 :: [52]))).1 = none := by
  have h := C3_open_dev_bounds_amended
    { find_dev := fun n => if n = [120] then some (0, ⟨0, 16⟩) else none,
      helpAddr := 0, coreInfoAddr := 0, coreInfoLen := 0,
      fpgaBase := 0, fpgaNBytes := 0 }
    { write := false, binary := true, ptr := 0, nleft := 0, lidx := 0, u32 := 0 }
    [120] [49] [51] 0 ⟨0, 16⟩ rfl (by decide) (by decide) (by norm_num)
    (by decide) (by decide) (by decide) (by decide) (by decide) (by decide)
    (by decide)
  have h2 := C3_open_dev_bounds_amended
    { find_dev := fun n => if n = [120] then some (0, ⟨0, 16⟩) else none,
      helpAddr := 0, coreInfoAddr := 0, coreInfoLen := 0,
      fpgaBase := 0, fpgaNBytes := 0 }
    { write := false, binary := true, ptr := 0, nleft := 0, lidx := 0, u32 := 0 }
    [120] [52] [51] 0 ⟨0, 16⟩ rfl (by decide) (by decide) (by norm_num)
    (by decide) (by decide) (by decide) (by decide) (by decide) (by decide)
    (by decide)
  constructor
  · intro hnone
    have := h.1.mp hnone
    revert this
    decide
  · exact h2.2.mpr (by decide)

/-- C4: every PUT (write-direction open) addressed to `/help`,
`/listdev`, `/temp`, to any `/cpu.*` path, or to any catalog device
whose read-only flag (the low bit of the descriptor offset word) is
set, yields open-failure (no handle).  None of the open paths performs
a memory store (the openers only fill in transfer state), so a
rejected PUT has no hardware side effect.  The GET-only routing of
`/help`, `/listdev` and `/temp` lives in the dispatcher modelled from
the spec (`tapcp_resolve`); the `/cpu.*` rejection and the read-only
rejection are decided by the source's `casper_tapcp_open_mem` and
`casper_tapcp_open_dev`. -/
theorem C4_put_read_only_protection (env : Env) (st : TapcpState)
    (hw : st.write = true) :
    tapcp_resolve env st (strBytes "/help") = none ∧
    tapcp_resolve env st (strBytes "/listdev") = none ∧
    tapcp_resolve env st (strBytes "/temp") = none ∧
    (∀ rest : List Nat, tapcp_resolve env st (strBytes "/cpu." ++ rest) = none) ∧
    (∀ fname : List Nat,
      (∀ nm base info, env.find_dev nm = some (base, info) → info.offset % 2 = 1) →
      (casper_tapcp_open_dev env st fname).1 = none) := by
  refine ⟨?_, ?_, ?_, ?_, ?_⟩
  · simp [tapcp_resolve, hw]
  · simp [tapcp_resolve, hw, show strBytes "/listdev" ≠ strBytes "/help" by decide]
  · simp [tapcp_resolve, hw, show strBytes "/temp" ≠ strBytes "/help" by decide,
      show strBytes "/temp" ≠ strBytes "/listdev" by decide]
  · intro rest
    rw [show strBytes "/cpu." = [47, 99, 112, 117, 46] from by decide]
    unfold tapcp_resolve
    rw [if_neg (show ¬ [47, 99, 112, 117, 46] ++ rest = strBytes "/help" from by
      rw [show strBytes "/help" = [47, 104, 101, 108, 112] from by decide]; simp)]
    rw [if_neg (show ¬ [47, 99, 112, 117, 46] ++ rest = strBytes "/listdev" from by
      rw [show strBytes "/listdev" = [47, 108, 105, 115, 116, 100, 101, 118] from by
        decide]
      simp)]
    rw [if_neg (show ¬ [47, 99, 112, 117, 46] ++ rest = strBytes "/temp" from by
      rw [show strBytes "/temp" = [47, 116, 101, 109, 112] from by decide]; simp)]
    rw [if_pos (show (listPrefix (strBytes "/fpga.") ([47, 99, 112, 117, 46] ++ rest) ||
        listPrefix (strBytes "/cpu.") ([47, 99, 112, 117, 46] ++ rest)) = true from by
      rw [show strBytes "/cpu." = [47, 99, 112, 117, 46] from by decide,
        show strBytes "/fpga." = [47, 102, 112, 103, 97, 46] from by decide]
      simp [listPrefix])]
    unfold casper_tapcp_open_mem
    rw [if_neg (show ¬ listPrefix (strBytes "/fpga.")
        ([47, 99, 112, 117, 46] ++ rest) = true from by
      rw [show strBytes "/fpga." = [47, 102, 112, 103, 97, 46] from by decide]
      simp [listPrefix])]
    rw [if_neg (show ¬ (st.write = false ∧ listPrefix (strBytes "/cpu.")
        ([47, 99, 112, 117, 46] ++ rest) = true) from by
      rintro ⟨h1, -⟩
      rw [hw] at h1
      simp at h1)]
  · intro fname hro
    unfold casper_tapcp_open_dev
    cases hdot : strchrIdx (fname.drop
        (if listPrefix (strBytes "/dev/") fname then 5 else 0)) 46 with
    | none =>
      cases henv : env.find_dev (fname.drop
          (if listPrefix (strBytes "/dev/") fname then 5 else 0)) with
      | none => simp [hdot, henv]
      | some v =>
        cases v with
        | mk base info =>
          have hro' := hro _ _ _ henv
          simp [hdot, henv, openDevTail, hw, hro']
    | some i =>
      cases henv : env.find_dev (((fname.drop
          (if listPrefix (strBytes "/dev/") fname then 5 else 0)).set i 0).take i) with
      | none => simp [hdot, henv]
      | some v =>
        cases v with
        | mk base info =>
          have hro' := hro _ _ _ henv
          simp [hdot, henv, openDevTail, hw, hro']

/-- Witness for C4 against a catalog whose only answer is a read-only
descriptor: PUTs to `/help`, `/listdev`, `/temp`, `/cpu.0` and to the
device `foo` all fail to open. -/
theorem C4_put_read_only_protection_witness :
    tapcp_resolve
      { find_dev := fun _ => some (0, ⟨1, 4⟩), helpAddr := 0, coreInfoAddr := 0,
        coreInfoLen := 0, fpgaBase := 4096, fpgaNBytes := 256 }
      { write := true, binary := true, ptr := 0, nleft := 0, lidx := 0, u32 := 0 }
      (strBytes "/help") = none ∧
    tapcp_resolve
      { find_dev := fun _ => some (0, ⟨1, 4⟩), helpAddr := 0, coreInfoAddr := 0,
        coreInfoLen := 0, fpgaBase := 4096, fpgaNBytes := 256 }
      { write := true, binary := true, ptr := 0, nleft := 0, lidx := 0, u32 := 0 }
      (strBytes "/cpu." ++ [48]) = none ∧
    (casper_tapcp_open_dev
      { find_dev := fun _ => some (0, ⟨1, 4⟩), helpAddr := 0, coreInfoAddr := 0,
        coreInfoLen := 0, fpgaBase := 4096, fpgaNBytes := 256 }
      { write := true, binary := true, ptr := 0, nleft := 0, lidx := 0, u32 := 0 }
      (strBytes "foo")).1 = none := by
  have h := C4_put_read_only_protection
    { find_dev := fun _ => some (0, ⟨1, 4⟩), helpAddr := 0, coreInfoAddr := 0,
      coreInfoLen := 0, fpgaBase := 4096, fpgaNBytes := 256 }
    { write := true, binary := true, ptr := 0, nleft := 0, lidx := 0, u32 := 0 }
    rfl
  exact ⟨h.1, h.2.2.2.1 [48], h.2.2.2.2 (strBytes "foo")
    (fun nm base info hfd => by
      simp only [Option.some.injEq, Prod.mk.injEq] at hfd
      rw [← hfd.2]
      rfl)⟩

theorem help_out_segment (mem : Nat → Nat) (a pos n : Nat)
    (hmem : ∀ i, i < tapcp_help_msg.length →
      mem (a + i) % 256 = tapcp_help_msg.getD i 0)
    (hle : pos + n ≤ tapcp_help_msg.length) :
    (List.range n).map (fun i => mem (a + pos + i) % 256) =
      (tapcp_help_msg.drop pos).take n := by
  apply List.ext_getElem
  · simp
    omega
  · intro j h1 h2
    simp only [List.getElem_map, List.getElem_range, List.getElem_take,
      List.getElem_drop]
    rw [show a + pos + j = a + (pos + j) by omega,
      hmem (pos + j) (by simp at h1; omega)]
    rw [List.getD_eq_getElem]

theorem runRead_cons {σ : Type} (call : σ → Nat → σ × List Nat) (st : σ) (n : Nat)
    (ns : List Nat) :
    runRead call st (n :: ns) =
      (match call st n with
       | (st', out) => if out.length < n then out else out ++ runRead call st' ns) := rfl

theorem read_help_eq (mem : Nat → Nat) (st : TapcpState) (bytes : Nat) :
    casper_tapcp_read_help mem st bytes =
      ({ st with
          ptr := st.ptr +
            (if (bytes : Int) < st.nleft then (bytes : Int) else st.nleft).toNat,
          nleft := st.nleft -
            (if (bytes : Int) < st.nleft then (bytes : Int) else st.nleft) },
        (List.range
            (if (bytes : Int) < st.nleft then (bytes : Int) else st.nleft).toNat).map
          (fun i => mem (st.ptr + i) % 256)) := rfl

theorem runRead_help (mem : Nat → Nat) (a : Nat)
    (hmem : ∀ i, i < tapcp_help_msg.length →
      mem (a + i) % 256 = tapcp_help_msg.getD i 0) :
    ∀ (ns : List Nat) (pos : Nat) (w b : Bool) (li : Int) (u : Nat),
    pos ≤ tapcp_help_msg.length →
    (∀ n ∈ ns, 0 < n) →
    tapcp_help_msg.length - pos < ns.sum →
    runRead (casper_tapcp_read_help mem)
      ⟨w, b, a + pos, (tapcp_help_msg.length : Int) - (pos : Int), li, u⟩ ns =
      tapcp_help_msg.drop pos := by
  intro ns
  induction ns with
  | nil =>
    intro pos w b li u _ _ h5
    simp at h5
  | cons n ns ih =>
    intro pos w b li u hle hpos hsum
    have hn : 0 < n := hpos n (by simp)
    rw [runRead_cons, read_help_eq]
    simp only []
    by_cases hcase : (n : Int) < (tapcp_help_msg.length : Int) - (pos : Int)
    · rw [if_pos hcase]
      rw [show ((n : Int)).toNat = n from by omega]
      rw [help_out_segment mem a pos n hmem (by omega)]
      rw [if_neg (show ¬ ((tapcp_help_msg.drop pos).take n).length < n from by
        simp
        omega)]
      rw [show a + pos + n = a + (pos + n) from by omega,
        show (tapcp_help_msg.length : Int) - (pos : Int) - (n : Int) =
          (tapcp_help_msg.length : Int) - ((pos + n : Nat) : Int) from by
          push_cast
          ring]
      rw [ih (pos + n) w b li u (by omega)
        (fun m hm => hpos m (by simp [hm]))
        (by simp at hsum ⊢; omega)]
      have hsplit : (tapcp_help_msg.drop pos).drop n =
          tapcp_help_msg.drop (pos + n) := by
        rw [List.drop_drop]
      rw [← hsplit, List.take_append_drop]
    · rw [if_neg hcase]
      rw [show ((tapcp_help_msg.length : Int) - (pos : Int)).toNat =
        tapcp_help_msg.length - pos from by omega]
      rw [help_out_segment mem a pos (tapcp_help_msg.length - pos) hmem (by omega)]
      rw [show (tapcp_help_msg.drop pos).take (tapcp_help_msg.length - pos) =
          tapcp_help_msg.drop pos from by
        apply List.take_of_length_le
        simp]
      by_cases hlt : (tapcp_help_msg.drop pos).length < n
      · rw [if_pos hlt]
      · rw [if_neg hlt]
        have heq : tapcp_help_msg.length - pos = n := by
          simp at hlt
          omega
        rw [heq]
        rw [show a + pos + n = a + (pos + n) from by omega,
          show (tapcp_help_msg.length : Int) - (pos : Int) -
            ((tapcp_help_msg.length : Int) - (pos : Int)) =
            (tapcp_help_msg.length : Int) - ((pos + n : Nat) : Int) from by
            push_cast
            omega]
        rw [ih (pos + n) w b li u (by omega)
          (fun m hm => hpos m (by simp [hm]))
          (by simp at hsum ⊢; omega)]
        rw [show tapcp_help_msg.drop (pos + n) = [] from by
          apply List.drop_eq_nil_of_le
          omega]
        simp

/-- C9: a GET of `/help` delivers exactly the fixed banner bytes (the
compile-time string without its terminating NUL), byte for byte with
no extra framing, for every engine schedule of positive block sizes
large enough to let the transfer end; the transfer state `st` —
including its mode flag — is arbitrary, and the opener binds the help
producer and the banner length without consulting the mode, so TEXT
and OCTET GETs produce identical bytes. -/
theorem C9_help_banner_exact (env : Env) (st : TapcpState) (mem : Nat → Nat)
    (ns : List Nat)
    (hmem : ∀ i, i < tapcp_help_msg.length →
      mem (env.helpAddr + i) % 256 = tapcp_help_msg.getD i 0)
    (hpos : ∀ n ∈ ns, 0 < n)
    (hsum : tapcp_help_msg.length < ns.sum) :
    runRead (casper_tapcp_read_help mem) (casper_tapcp_open_help env st).1 ns =
      tapcp_help_msg ∧
    (casper_tapcp_open_help env st).1.nleft = (tapcp_help_msg.length : Int) ∧
    (casper_tapcp_open_help env st).2 = Codec.readHelp := by
  refine ⟨?_, rfl, rfl⟩
  have h := runRead_help mem env.helpAddr hmem ns 0 st.write st.binary st.lidx st.u32
    (by omega) hpos (by simpa using hsum)
  simpa [casper_tapcp_open_help] using h

set_option maxRecDepth 8192 in
/-- Witness for C9: with the banner laid out at address 0 and a single
512-byte block request followed by another, the run returns exactly the
banner. -/
theorem C9_help_banner_exact_witness :
    runRead (casper_tapcp_read_help (fun j => tapcp_help_msg.getD j 0))
      (casper_tapcp_open_help
        { find_dev := fun _ => none, helpAddr := 0, coreInfoAddr := 0,
          coreInfoLen := 0, fpgaBase := 0, fpgaNBytes := 0 }
        { write := false, binary := false, ptr := 0, nleft := 0, lidx := 0, u32 := 0 }).1
      [512, 512] = tapcp_help_msg := by
  have hall : ∀ c ∈ tapcp_help_msg, c < 256 := by decide
  have h := C9_help_banner_exact
    { find_dev := fun _ => none, helpAddr := 0, coreInfoAddr := 0,
      coreInfoLen := 0, fpgaBase := 0, fpgaNBytes := 0 }
    { write := false, binary := false, ptr := 0, nleft := 0, lidx := 0, u32 := 0 }
    (fun j => tapcp_help_msg.getD j 0) [512, 512]
    (fun i hi => by
      simp only [Nat.zero_add]
      apply Nat.mod_eq_of_lt
      rw [List.getD_eq_getElem _ _ hi]
      exact hall _ (List.getElem_mem hi))
    (by decide) (by decide)
  exact h.1

theorem lor_ne_zero (a b : Nat) (h : a ≠ 0) : a ||| b ≠ 0 := by
  intro h0
  apply h
  apply Nat.eq_of_testBit_eq
  intro i
  have hbit := congrArg (fun x => x.testBit i) h0
  simp only [Nat.testBit_lor] at hbit
  simp only [Nat.zero_testBit]
  cases ha : a.testBit i
  · rfl
  · rw [ha] at hbit
    simp at hbit

theorem hexVal_hexChar (c : Nat) (h : c < 16) : hexVal (hexChar c) = c := by
  interval_cases c <;> decide

theorem hexChar_ne_nl (c : Nat) (h : c < 16) : hexChar c ≠ 10 := by
  interval_cases c <;> decide

theorem hexChar_ne_sp (c : Nat) (h : c < 16) : hexChar c ≠ 32 := by
  interval_cases c <;> decide

theorem u8_to_hex_full (c : Nat) :
    u8_to_hex c 17 = [hexChar (c >>> 4 % 16), hexChar (c % 16)] := by
  have h : c >>> 4 % 16 < 16 := Nat.mod_lt _ (by norm_num)
  unfold u8_to_hex
  simp only []
  rw [if_pos (show decide (c >>> 4 % 16 ≠ 0 ∨ 17 >>> 4 ≠ 0) = true from by
    simp)]
  rw [if_pos (show decide (c >>> 4 % 16 ≠ 0 ∨ 17 >>> 4 ≠ 0) = true from by
    simp)]
  rw [if_pos (show c % 16 ≠ 0 ∨ (17 ||| c >>> 4 % 16) % 16 ≠ 0 from by
    right
    generalize c >>> 4 % 16 = hi at h
    interval_cases hi <;> decide)]
  rfl

theorem u32_to_hex_full (w : Nat) : u32_to_hex w 1 = hex8 w := by
  have h1 : (1 : Nat) ≠ 0 := one_ne_zero
  have h2 : (1 : Nat) ||| w >>> 24 % 256 ≠ 0 := lor_ne_zero 1 _ h1
  have h3 : ((1 : Nat) ||| w >>> 24 % 256) ||| w >>> 16 % 256 ≠ 0 :=
    lor_ne_zero _ _ h2
  have h4 : (((1 : Nat) ||| w >>> 24 % 256) ||| w >>> 16 % 256) ||| w >>> 8 % 256 ≠ 0 :=
    lor_ne_zero _ _ h3
  unfold u32_to_hex
  rw [show (4 : Nat) = 3 + 1 from rfl]
  unfold u32Go
  rw [show (3 : Nat) = 2 + 1 from rfl]
  unfold u32Go
  rw [show (2 : Nat) = 1 + 1 from rfl]
  unfold u32Go
  rw [show (1 : Nat) = 0 + 1 from rfl]
  unfold u32Go
  simp only [if_pos h1, if_pos h2, if_pos h3, if_pos h4,
    Nat.mul_zero, Nat.sub_zero, Nat.mul_one]
  rw [show 24 - 8 * 2 = 8 from rfl, show 24 - 8 * 3 = 0 from rfl,
    show w >>> 0 = w from Nat.shiftRight_zero]
  rw [u8_to_hex_full, u8_to_hex_full, u8_to_hex_full, u8_to_hex_full]
  simp only [u32Go, List.append_nil, List.cons_append, List.nil_append]
  unfold hex8
  rw [show (w >>> 24 % 256) >>> 4 % 16 = w >>> 28 % 16 from by
      simp only [Nat.shiftRight_eq_div_pow]
      omega,
    show w >>> 24 % 256 % 16 = w >>> 24 % 16 from by omega,
    show (w >>> 16 % 256) >>> 4 % 16 = w >>> 20 % 16 from by
      simp only [Nat.shiftRight_eq_div_pow]
      omega,
    show w >>> 16 % 256 % 16 = w >>> 16 % 16 from by omega,
    show (w >>> 8 % 256) >>> 4 % 16 = w >>> 12 % 16 from by
      simp only [Nat.shiftRight_eq_div_pow]
      omega,
    show w >>> 8 % 256 % 16 = w >>> 8 % 16 from by omega,
    show (w % 256) >>> 4 % 16 = w >>> 4 % 16 from by
      simp only [Nat.shiftRight_eq_div_pow]
      omega,
    show w % 256 % 16 = w % 16 from by omega]

theorem hexListVal_hex8 (w : Nat) : hexListVal (hex8 w) = w % 2 ^ 32 := by
  unfold hex8 hexListVal
  simp only [List.foldl_cons, List.foldl_nil]
  rw [hexVal_hexChar _ (Nat.mod_lt _ (by norm_num)),
    hexVal_hexChar _ (Nat.mod_lt _ (by norm_num)),
    hexVal_hexChar _ (Nat.mod_lt _ (by norm_num)),
    hexVal_hexChar _ (Nat.mod_lt _ (by norm_num)),
    hexVal_hexChar _ (Nat.mod_lt _ (by norm_num)),
    hexVal_hexChar _ (Nat.mod_lt _ (by norm_num)),
    hexVal_hexChar _ (Nat.mod_lt _ (by norm_num)),
    hexVal_hexChar _ (Nat.mod_lt _ (by norm_num))]
  simp only [Nat.shiftRight_eq_div_pow]
  omega

theorem rbGo_load (mem : Nat → Nat) (fuel ptr : Nat) (nleft : Int)
    (word : Nat) (acc : List Nat) (h : nleft > 0)
    (h3 : ((nleft - 1) % 4).toNat = 3) :
    rbGo mem (fuel + 1) ptr nleft word acc =
      rbGo mem fuel (ptr + 4) (nleft - 1) (mem ptr % 2 ^ 32)
        (acc ++ [(mem ptr % 2 ^ 32) >>> 24 % 256]) := by
  conv_lhs => unfold rbGo
  rw [if_pos h]
  simp only []
  rw [h3]

theorem rbGo_emit2 (mem : Nat → Nat) (fuel ptr : Nat) (nleft : Int)
    (word : Nat) (acc : List Nat) (h : nleft > 0)
    (h2 : ((nleft - 1) % 4).toNat = 2) :
    rbGo mem (fuel + 1) ptr nleft word acc =
      rbGo mem fuel ptr (nleft - 1) word (acc ++ [word >>> 16 % 256]) := by
  conv_lhs => unfold rbGo
  rw [if_pos h]
  simp only []
  rw [h2]

theorem rbGo_emit1 (mem : Nat → Nat) (fuel ptr : Nat) (nleft : Int)
    (word : Nat) (acc : List Nat) (h : nleft > 0)
    (h1 : ((nleft - 1) % 4).toNat = 1) :
    rbGo mem (fuel + 1) ptr nleft word acc =
      rbGo mem fuel ptr (nleft - 1) word (acc ++ [word >>> 8 % 256]) := by
  conv_lhs => unfold rbGo
  rw [if_pos h]
  simp only []
  rw [h1]

theorem rbGo_emit0 (mem : Nat → Nat) (fuel ptr : Nat) (nleft : Int)
    (word : Nat) (acc : List Nat) (h : nleft > 0)
    (h0 : ((nleft - 1) % 4).toNat = 0) :
    rbGo mem (fuel + 1) ptr nleft word acc =
      rbGo mem fuel ptr (nleft - 1) word (acc ++ [word % 256]) := by
  conv_lhs => unfold rbGo
  rw [if_pos h]
  simp only []
  rw [h0]

theorem rbGo_word (mem : Nat → Nat) (j ptr w : Nat) (acc : List Nat) :
    rbGo mem (4 * j + 4) ptr ((4 * j + 4 : Nat) : Int) w acc =
      rbGo mem (4 * j) (ptr + 4) ((4 * j : Nat) : Int) (mem ptr % 2 ^ 32)
        (acc ++ beBytes (mem ptr % 2 ^ 32)) := by
  rw [show 4 * j + 4 = (4 * j + 3) + 1 from by omega]
  rw [rbGo_load mem (4 * j + 3) ptr _ w acc (by push_cast; omega)
    (by push_cast; omega)]
  rw [show (4 * j + 3) = (4 * j + 2) + 1 from by omega]
  rw [rbGo_emit2 mem (4 * j + 2) (ptr + 4) _ _ _ (by push_cast; omega)
    (by push_cast; omega)]
  rw [show (4 * j + 2) = (4 * j + 1) + 1 from by omega]
  rw [rbGo_emit1 mem (4 * j + 1) (ptr + 4) _ _ _ (by push_cast; omega)
    (by push_cast; omega)]
  rw [show (4 * j + 1) = 4 * j + 1 from rfl]
  rw [rbGo_emit0 mem (4 * j) (ptr + 4) _ _ _ (by push_cast; omega)
    (by push_cast; omega)]
  rw [show ((4 * j + 4 : Nat) : Int) - 1 - 1 - 1 - 1 = ((4 * j : Nat) : Int) from by
    push_cast
    ring]
  simp [beBytes, List.append_assoc]

theorem fpgaWords_succ (mem : Nat → Nat) (ptr j : Nat) :
    fpgaWords mem ptr (j + 1) = mem ptr % 2 ^ 32 :: fpgaWords mem (ptr + 4) j := by
  unfold fpgaWords
  rw [List.range_succ_eq_map]
  simp only [List.map_cons, List.map_map, Nat.mul_zero, Nat.add_zero,
    List.cons.injEq]
  refine ⟨trivial, ?_⟩
  apply List.map_congr_left
  intro i _
  simp only [Function.comp_apply]
  rw [show ptr + 4 + 4 * i = ptr + 4 * (i + 1) from by omega]

theorem rbGo_words (mem : Nat → Nat) : ∀ (k ptr w : Nat) (acc : List Nat),
    (rbGo mem (4 * k) ptr ((4 * k : Nat) : Int) w acc).2.2.2 =
      acc ++ ((fpgaWords mem ptr k).map beBytes).flatten := by
  intro k
  induction k with
  | zero =>
    intro ptr w acc
    simp [rbGo, fpgaWords]
  | succ j ih =>
    intro ptr w acc
    rw [show 4 * (j + 1) = 4 * j + 4 from by ring]
    rw [rbGo_word mem j ptr w acc]
    rw [ih (ptr + 4) (mem ptr % 2 ^ 32) (acc ++ beBytes (mem ptr % 2 ^ 32))]
    rw [fpgaWords_succ mem ptr j]
    simp [List.append_assoc]

theorem parseBE32_flatten : ∀ (ws : List Nat), (∀ w ∈ ws, w < 2 ^ 32) →
    parseBE32 ((ws.map beBytes).flatten) = ws := by
  intro ws
  induction ws with
  | nil => intro _; rfl
  | cons w rest ih =>
    intro hws
    have hw : w < 2 ^ 32 := hws w (by simp)
    simp only [List.map_cons, List.flatten_cons]
    rw [show beBytes w ++ ((rest.map beBytes).flatten) =
      w >>> 24 % 256 :: (w >>> 16 % 256 :: (w >>> 8 % 256 :: (w % 256 ::
        (rest.map beBytes).flatten))) from by simp [beBytes]]
    unfold parseBE32
    rw [ih (fun x hx => hws x (by simp [hx]))]
    simp only [List.cons.injEq, and_true]
    simp only [Nat.shiftRight_eq_div_pow]
    omega

theorem joinSp_cons_eq : ∀ (g : List Nat) (gs : List (List Nat)),
    joinSp (g :: gs) = g ++ (gs.map (fun h => 32 :: h)).flatten := by
  intro g gs
  induction gs generalizing g with
  | nil => simp [joinSp]
  | cons g2 gs ih =>
    rw [show joinSp (g :: g2 :: gs) = g ++ 32 :: joinSp (g2 :: gs) from rfl]
    rw [ih g2]
    simp

theorem hex8_length (w : Nat) : (hex8 w).length = 8 := rfl

theorem hex8_ne_nil (w : Nat) : hex8 w ≠ [] := by simp [hex8]

theorem mem_hex8_lt (w c : Nat) (h : c ∈ hex8 w) :
    ∃ x, x < 16 ∧ c = hexChar x := by
  simp only [hex8, List.mem_cons, List.not_mem_nil, or_false] at h
  rcases h with h | h | h | h | h | h | h | h <;>
    exact ⟨_, Nat.mod_lt _ (by norm_num), h⟩

theorem mem_hex8_ne_nl (w c : Nat) (h : c ∈ hex8 w) : c ≠ 10 := by
  obtain ⟨x, hx, rfl⟩ := mem_hex8_lt w c h
  exact hexChar_ne_nl x hx

theorem mem_hex8_ne_sp (w c : Nat) (h : c ∈ hex8 w) : c ≠ 32 := by
  obtain ⟨x, hx, rfl⟩ := mem_hex8_lt w c h
  exact hexChar_ne_sp x hx

theorem fpgaWords_one (mem : Nat → Nat) (ptr : Nat) :
    fpgaWords mem ptr 1 = [mem ptr % 2 ^ 32] := by
  rw [fpgaWords_succ]
  rfl

theorem rfaLineWords_go (mem : Nat → Nat) : ∀ (k : Nat) (fuel i ptr : Nat),
    1 ≤ k → 1 ≤ i →
    rfaLineWords mem fuel i ptr ((4 * k : Nat) : Int) =
      (((fpgaWords mem ptr (min fuel k)).map (fun w => 32 :: hex8 w)).flatten,
        ptr + 4 * min fuel k, ((4 * (k - min fuel k) : Nat) : Int)) := by
  intro k
  induction k with
  | zero => intro fuel i ptr hk _; omega
  | succ j ih =>
    intro fuel i ptr _ hi
    cases fuel with
    | zero =>
      simp [rfaLineWords, fpgaWords]
    | succ f =>
      conv_lhs => unfold rfaLineWords
      simp only []
      rw [if_pos (show i > 0 from by omega), u32_to_hex_full]
      by_cases hj : j = 0
      · subst hj
        rw [if_pos (show ((4 * 1 : Nat) : Int) - 4 = 0 from by omega)]
        rw [show min (f + 1) 1 = 1 from by omega, fpgaWords_one]
        simp only [List.map_cons, List.map_nil, List.flatten_cons,
          List.flatten_nil, List.append_nil, Prod.mk.injEq]
        refine ⟨rfl, trivial, by omega⟩
      · rw [if_neg (show ¬ ((4 * (j + 1) : Nat) : Int) - 4 = 0 from by
          push_cast
          omega)]
        rw [show ((4 * (j + 1) : Nat) : Int) - 4 = ((4 * j : Nat) : Int) from by
          push_cast
          ring]
        rw [ih f (i + 1) (ptr + 4) (by omega) (by omega)]
        simp only []
        rw [show min (f + 1) (j + 1) = min f j + 1 from by omega]
        rw [fpgaWords_succ]
        simp only [List.map_cons, List.flatten_cons, Prod.mk.injEq]
        refine ⟨by simp, by omega, by congr 1; omega⟩

theorem rfaLineWords_full (mem : Nat → Nat) (ptr k : Nat) (hk : 1 ≤ k) :
    rfaLineWords mem 4 0 ptr ((4 * k : Nat) : Int) =
      (joinSp ((fpgaWords mem ptr (min 4 k)).map hex8),
        ptr + 4 * min 4 k, ((4 * (k - min 4 k) : Nat) : Int)) := by
  show rfaLineWords mem (3 + 1) 0 ptr ((4 * k : Nat) : Int) = _
  conv_lhs => unfold rfaLineWords
  simp only []
  rw [if_neg (show ¬ (0 : Nat) > 0 from by omega), u32_to_hex_full]
  cases k with
  | zero => omega
  | succ j =>
    by_cases hj : j = 0
    · subst hj
      rw [if_pos (show ((4 * 1 : Nat) : Int) - 4 = 0 from by omega)]
      rw [show min (3 + 1) 1 = 1 from by omega, fpgaWords_one]
      simp only [List.map_cons, List.map_nil, List.nil_append, Prod.mk.injEq]
      refine ⟨?_, ?_, ?_⟩
      · rfl
      · trivial
      · omega
    · rw [if_neg (show ¬ ((4 * (j + 1) : Nat) : Int) - 4 = 0 from by
        push_cast
        omega)]
      rw [show ((4 * (j + 1) : Nat) : Int) - 4 = ((4 * j : Nat) : Int) from by
        push_cast
        ring]
      rw [rfaLineWords_go mem j 3 1 (ptr + 4) (by omega) (by omega)]
      simp only []
      rw [show min (3 + 1) (j + 1) = min 3 j + 1 from by omega]
      rw [fpgaWords_succ]
      simp only [List.map_cons, List.nil_append, Prod.mk.injEq]
      rw [joinSp_cons_eq]
      refine ⟨by rw [List.map_map]; rfl, by omega, by congr 1; omega⟩

theorem rfaBuildLine_eq (mem : Nat → Nat) (ptr k label : Nat) (hk : 1 ≤ k) :
    rfaBuildLine mem ptr ((4 * k : Nat) : Int) label =
      (hex8 label ++ [58, 32] ++ joinSp ((fpgaWords mem ptr (min 4 k)).map hex8) ++
        [10], ptr + 4 * min 4 k, ((4 * (k - min 4 k) : Nat) : Int),
        (label + 16) % 2 ^ 32) := by
  unfold rfaBuildLine
  rw [rfaLineWords_full mem ptr k hk, u32_to_hex_full]

theorem fpgaWords_lt (mem : Nat → Nat) (ptr k w : Nat)
    (h : w ∈ fpgaWords mem ptr k) : w < 2 ^ 32 := by
  simp only [fpgaWords, List.mem_map] at h
  obtain ⟨i, _, rfl⟩ := h
  exact Nat.mod_lt _ (by norm_num)

theorem fpgaWords_length (mem : Nat → Nat) (ptr k : Nat) :
    (fpgaWords mem ptr k).length = k := by
  simp [fpgaWords]

theorem fpgaWords_append (mem : Nat → Nat) (ptr a b : Nat) :
    fpgaWords mem ptr (a + b) =
      fpgaWords mem ptr a ++ fpgaWords mem (ptr + 4 * a) b := by
  unfold fpgaWords
  rw [List.range_add a b, List.map_append, List.map_map]
  congr 1
  apply List.map_congr_left
  intro i _
  simp only [Function.comp_apply]
  congr 2
  ring

theorem joinSp_length_hex8 : ∀ (ws : List Nat), ws ≠ [] →
    (joinSp (ws.map hex8)).length = 9 * ws.length - 1 := by
  intro ws
  induction ws with
  | nil => intro h; exact absurd rfl h
  | cons w rest ih =>
    intro _
    cases rest with
    | nil => simp [joinSp, hex8]
    | cons w2 r2 =>
      rw [List.map_cons, show joinSp (hex8 w :: (w2 :: r2).map hex8) =
        hex8 w ++ 32 :: joinSp ((w2 :: r2).map hex8) from rfl]
      simp only [List.length_append, List.length_cons, hex8_length]
      rw [ih (by simp)]
      simp only [List.length_cons]
      omega

theorem mem_joinSp : ∀ (gs : List (List Nat)) (c : Nat), c ∈ joinSp gs →
    c = 32 ∨ ∃ g ∈ gs, c ∈ g := by
  intro gs
  induction gs with
  | nil => intro c h; simp [joinSp] at h
  | cons g rest ih =>
    intro c h
    cases rest with
    | nil =>
      rw [show joinSp [g] = g from rfl] at h
      exact Or.inr ⟨g, by simp, h⟩
    | cons g2 r2 =>
      rw [show joinSp (g :: g2 :: r2) = g ++ 32 :: joinSp (g2 :: r2) from rfl] at h
      rcases List.mem_append.mp h with h | h
      · exact Or.inr ⟨g, by simp, h⟩
      · rcases List.mem_cons.mp h with h | h
        · exact Or.inl h
        · rcases ih c h with h | ⟨g3, hg3, hc⟩
          · exact Or.inl h
          · exact Or.inr ⟨g3, List.mem_cons_of_mem _ hg3, hc⟩

theorem nl_not_mem_line (label : Nat) (ws : List Nat) :
    ¬ (10 : Nat) ∈ hex8 label ++ [58, 32] ++ joinSp (ws.map hex8) := by
  intro h
  rcases List.mem_append.mp h with h | h
  · rcases List.mem_append.mp h with h | h
    · exact mem_hex8_ne_nl label 10 h rfl
    · simp at h
  · rcases mem_joinSp _ _ h with h | ⟨g, hg, hc⟩
    · exact absurd h (by norm_num)
    · obtain ⟨w, _, rfl⟩ := List.mem_map.mp hg
      exact mem_hex8_ne_nl w 10 hc rfl

theorem splitByte_no (d : Nat) : ∀ (l : List Nat), d ∉ l → splitByte d l = [l] := by
  intro l
  induction l with
  | nil => intro _; rfl
  | cons c t ih =>
    intro h
    unfold splitByte
    rw [if_neg (by intro hc; exact h (by simp [hc]))]
    rw [ih (fun ht => h (List.mem_cons_of_mem _ ht))]

theorem splitByte_append (d : Nat) : ∀ (xs rest : List Nat), d ∉ xs →
    splitByte d (xs ++ d :: rest) = xs :: splitByte d rest := by
  intro xs
  induction xs with
  | nil =>
    intro rest _
    show splitByte d (d :: rest) = [] :: splitByte d rest
    conv_lhs => unfold splitByte
    rw [if_pos rfl]
  | cons c t ih =>
    intro rest h
    show splitByte d (c :: (t ++ d :: rest)) = (c :: t) :: splitByte d rest
    conv_lhs => unfold splitByte
    rw [if_neg (by intro hc; exact h (by simp [hc]))]
    rw [ih rest (fun ht => h (List.mem_cons_of_mem _ ht))]

theorem splitByte_joinSp : ∀ (gs : List (List Nat)), gs ≠ [] →
    (∀ g ∈ gs, (32 : Nat) ∉ g) → splitByte 32 (joinSp gs) = gs := by
  intro gs
  induction gs with
  | nil => intro h _; exact absurd rfl h
  | cons g rest ih =>
    intro _ hg
    cases rest with
    | nil =>
      rw [show joinSp [g] = g from rfl]
      exact splitByte_no 32 g (hg g (by simp))
    | cons g2 r2 =>
      rw [show joinSp (g :: g2 :: r2) = g ++ 32 :: joinSp (g2 :: r2) from rfl]
      rw [splitByte_append 32 g _ (hg g (by simp))]
      rw [ih (by simp) (fun g3 hg3 => hg g3 (List.mem_cons_of_mem _ hg3))]

theorem dumpLines_zero (mem : Nat → Nat) (fuel ptr label : Nat) :
    dumpLines mem fuel ptr 0 label = [] := by
  cases fuel with
  | zero => rfl
  | succ f =>
    unfold dumpLines
    rw [if_pos rfl]

theorem rfaGo_stop (mem : Nat → Nat) (fuel ptr : Nat) (nleft : Int)
    (lidx label : Nat) (lineBuf : List Nat) (budget : Nat) (acc : List Nat)
    (h : nleft ≤ 0) :
    rfaGo mem fuel ptr nleft lidx label lineBuf budget acc =
      (ptr, nleft, lidx, label, lineBuf, acc) := by
  cases fuel with
  | zero => rfl
  | succ f =>
    unfold rfaGo
    rw [if_neg (fun hc => absurd hc.2 (by omega))]

theorem copyFromLine_cons (b lidx : Nat) (lineBuf acc : List Nat) (c : Nat)
    (t : List Nat) (h : lineBuf.drop lidx = c :: t) (hc : c ≠ 10) :
    copyFromLine (b + 1) lineBuf lidx acc =
      copyFromLine b lineBuf (lidx + 1) (acc ++ [c]) := by
  conv_lhs => unfold copyFromLine; rw [h]
  simp only [if_neg hc]

theorem copyFromLine_nl (b lidx : Nat) (lineBuf acc : List Nat)
    (t : List Nat) (h : lineBuf.drop lidx = 10 :: t) :
    copyFromLine (b + 1) lineBuf lidx acc = (acc ++ [10], 0) := by
  conv_lhs => unfold copyFromLine; rw [h]
  simp

theorem copyFromLine_go : ∀ (rest : List Nat) (budget lidx : Nat)
    (lineBuf acc : List Nat),
    lineBuf.drop lidx = rest ++ [10] → (10 : Nat) ∉ rest →
    rest.length + 1 ≤ budget →
    copyFromLine budget lineBuf lidx acc = (acc ++ rest ++ [10], 0) := by
  intro rest
  induction rest with
  | nil =>
    intro budget lidx lineBuf acc hdrop _ hb
    cases budget with
    | zero => omega
    | succ b =>
      rw [List.nil_append] at hdrop
      rw [copyFromLine_nl b lidx lineBuf acc [] hdrop]
      simp
  | cons c t ih =>
    intro budget lidx lineBuf acc hdrop hmem hb
    cases budget with
    | zero => simp at hb
    | succ b =>
      rw [show (c :: t) ++ [10] = c :: (t ++ [10]) from rfl] at hdrop
      have hc : c ≠ 10 := fun h => hmem (by simp [h])
      rw [copyFromLine_cons b lidx lineBuf acc c (t ++ [10]) hdrop hc]
      have hdrop2 : lineBuf.drop (lidx + 1) = t ++ [10] := by
        have h2 := congrArg (List.drop 1) hdrop
        rw [List.drop_drop] at h2
        simpa using h2
      rw [ih b (lidx + 1) lineBuf (acc ++ [c]) hdrop2
        (fun h => hmem (List.mem_cons_of_mem _ h)) (by
          simp only [List.length_cons] at hb
          omega)]
      simp

theorem rfaGo_step (mem : Nat → Nat) (f ptr : Nat) (nleft : Int)
    (label : Nat) (lineBuf : List Nat) (budget : Nat) (acc : List Nat)
    (hb : budget > 0) (hn : nleft > 0) :
    rfaGo mem (f + 1) ptr nleft 0 label lineBuf budget acc =
      (match rfaBuildLine mem ptr nleft label with
       | (lineBuf2, ptr2, nleft2, label2) =>
         match copyFromLine budget lineBuf2 0 [] with
         | (out, lidx2) =>
           rfaGo mem f ptr2 nleft2 lidx2 label2 lineBuf2 (budget - out.length)
             (acc ++ out)) := by
  conv_lhs => unfold rfaGo
  rw [if_pos ⟨hb, hn⟩, if_pos rfl]

theorem rfaGo_run (mem : Nat → Nat) : ∀ (fuel k ptr label budget : Nat)
    (lineBuf acc : List Nat),
    1 ≤ k → (k + 3) / 4 ≤ fuel → 9 * k + 10 * ((k + 3) / 4) ≤ budget →
    ∃ lab lb,
      rfaGo mem fuel ptr ((4 * k : Nat) : Int) 0 label lineBuf budget acc =
        (ptr + 4 * k, (0 : Int), 0, lab, lb,
          acc ++ dumpLines mem fuel ptr k label) := by
  intro fuel
  induction fuel with
  | zero => intro k _ _ _ _ _ hk hf _; omega
  | succ f ih =>
    intro k ptr label budget lineBuf acc hk hf hb
    have hceil : 1 ≤ (k + 3) / 4 := by omega
    rw [rfaGo_step mem f ptr _ label lineBuf budget acc (by omega)
      (by push_cast; omega)]
    rw [rfaBuildLine_eq mem ptr k label hk]
    simp only []
    have hm4 : min 4 k ≤ 4 := by omega
    have hmk : min 4 k ≤ k := by omega
    have hm1 : 1 ≤ min 4 k := by omega
    have hwsne : (fpgaWords mem ptr (min 4 k)) ≠ [] := by
      intro hcon
      have := fpgaWords_length mem ptr (min 4 k)
      rw [hcon] at this
      simp at this
      omega
    have hrest : (hex8 label ++ [58, 32] ++
        joinSp ((fpgaWords mem ptr (min 4 k)).map hex8)).length =
        9 * min 4 k + 9 := by
      simp only [List.length_append, hex8_length]
      rw [joinSp_length_hex8 _ hwsne, fpgaWords_length]
      simp only [List.length_cons, List.length_nil]
      omega
    rw [copyFromLine_go _ budget 0 _ []
      (by rw [List.drop_zero])
      (nl_not_mem_line label _) (by rw [hrest]; omega)]
    simp only [List.nil_append]
    rcases Nat.lt_or_ge k 5 with hk5 | hk5
    · have hmeq : min 4 k = k := by omega
      rw [rfaGo_stop mem f _ _ _ _ _ _ _ (by omega)]
      refine ⟨(label + 16) % 2 ^ 32, hex8 label ++ [58, 32] ++
        joinSp ((fpgaWords mem ptr (min 4 k)).map hex8) ++ [10], ?_⟩
      simp only [Prod.mk.injEq]
      refine ⟨by omega, by omega, trivial, trivial, trivial, ?_⟩
      conv_rhs => unfold dumpLines
      rw [if_neg (by omega)]
      rw [show k - min 4 k = 0 from by omega, dumpLines_zero]
      simp [List.append_assoc]
    · have hmeq : min 4 k = 4 := by omega
      rw [hmeq] at hrest
      rw [hmeq]
      have hlen : (hex8 label ++ [58, 32] ++
          joinSp ((fpgaWords mem ptr 4).map hex8) ++ [10]).length = 46 := by
        rw [List.length_append, hrest]
        simp
      rw [hlen]
      obtain ⟨lab, lb, hrec⟩ := ih (k - 4) (ptr + 4 * 4) ((label + 16) % 2 ^ 32)
        (budget - 46)
        (hex8 label ++ [58, 32] ++ joinSp ((fpgaWords mem ptr 4).map hex8) ++ [10])
        (acc ++ (hex8 label ++ [58, 32] ++
          joinSp ((fpgaWords mem ptr 4).map hex8) ++ [10]))
        (by omega) (by omega) (by omega)
      rw [hrec]
      refine ⟨lab, lb, ?_⟩
      simp only [Prod.mk.injEq]
      refine ⟨by omega, trivial, trivial, trivial, trivial, ?_⟩
      conv_rhs => unfold dumpLines
      rw [if_neg (by omega), hmeq]
      simp [List.append_assoc]

theorem dumpLineWords_line (label : Nat) (ws : List Nat) (hne : ws ≠ [])
    (hlt : ∀ w ∈ ws, w < 2 ^ 32) :
    dumpLineWords (hex8 label ++ [58, 32] ++ joinSp (ws.map hex8)) = ws := by
  unfold dumpLineWords
  rw [if_neg (by simp [hex8])]
  have hdrop : (hex8 label ++ [58, 32] ++ joinSp (ws.map hex8)).drop 10 =
      joinSp (ws.map hex8) := by
    rw [show (10 : Nat) = (hex8 label ++ [58, 32]).length from by
      simp [hex8_length]]
    exact List.drop_left _ _
  rw [hdrop]
  rw [splitByte_joinSp (ws.map hex8) (by simp [hne])
    (by
      intro g hg
      obtain ⟨w, _, rfl⟩ := List.mem_map.mp hg
      intro hc
      exact mem_hex8_ne_sp w 32 hc rfl)]
  rw [List.map_map]
  conv_rhs => rw [show ws = ws.map id from (List.map_id ws).symm]
  apply List.map_congr_left
  intro w hw
  simp only [Function.comp_apply, id]
  rw [hexListVal_hex8]
  exact Nat.mod_eq_of_lt (hlt w hw)

theorem asciiRenderedWords_dumpLines (mem : Nat → Nat) :
    ∀ (fuel ptr k label : Nat), (k + 3) / 4 ≤ fuel →
    asciiRenderedWords (dumpLines mem fuel ptr k label) = fpgaWords mem ptr k := by
  intro fuel
  induction fuel with
  | zero =>
    intro ptr k label hf
    have hk : k = 0 := by omega
    subst hk
    rfl
  | succ f ih =>
    intro ptr k label hf
    by_cases hk : k = 0
    · subst hk
      rfl
    · have hm1 : 1 ≤ min 4 k := by omega
      rw [show dumpLines mem (f + 1) ptr k label =
          (hex8 label ++ [58, 32] ++
            joinSp ((fpgaWords mem ptr (min 4 k)).map hex8)) ++
            10 :: dumpLines mem f (ptr + 4 * min 4 k) (k - min 4 k)
              ((label + 16) % 2 ^ 32) from by
        conv_lhs => unfold dumpLines
        rw [if_neg hk]
        simp [List.append_assoc]]
      unfold asciiRenderedWords
      rw [splitByte_append 10 _ _ (nl_not_mem_line label _)]
      rw [List.map_cons, List.flatten_cons]
      rw [dumpLineWords_line label _ (by
          intro hcon
          have := fpgaWords_length mem ptr (min 4 k)
          rw [hcon] at this
          simp at this
          omega)
        (fun w hw => fpgaWords_lt mem ptr (min 4 k) w hw)]
      have htail : ((splitByte 10 (dumpLines mem f (ptr + 4 * min 4 k)
          (k - min 4 k) ((label + 16) % 2 ^ 32))).map dumpLineWords).flatten =
          fpgaWords mem (ptr + 4 * min 4 k) (k - min 4 k) :=
        ih (ptr + 4 * min 4 k) (k - min 4 k) ((label + 16) % 2 ^ 32) (by omega)
      rw [htail]
      rw [show k = min 4 k + (k - min 4 k) from by omega]
      rw [fpgaWords_append]
      rw [show min 4 (min 4 k + (k - min 4 k)) = min 4 k from by omega]
      rw [show min 4 k + (k - min 4 k) - min 4 k = k - min 4 k from by omega]

/-- C5: for every word-aligned FPGA region of `k` whole 32-bit words, the
sequence of words rendered by the TEXT-mode FPGA read producer (8 hex
digits per word, up to four words per line after the 8-digit label and
`": "`, lines separated by newlines) equals the big-endian parse of the
OCTET-mode FPGA read of the same region.  The TEXT producer is given one
buffer large enough for the whole rendering; the OCTET producer one of
exactly `4 * k` bytes. -/
theorem C5_text_binary_read_equivalence (mem : Nat → Nat)
    (ptr k w0 label : Nat) :
    asciiRenderedWords
        (casper_tapcp_read_fpga_words_ascii mem
          ⟨false, false, ptr, ((4 * k : Nat) : Int), 0, label⟩ []
          (9 * k + 10 * ((k + 3) / 4))).2.2 =
      parseBE32
        (casper_tapcp_read_fpga_words_binary mem
          ⟨false, true, ptr, ((4 * k : Nat) : Int), 0, 0⟩ w0 (4 * k)).2.2 := by
  rcases Nat.eq_zero_or_pos k with hk | hk
  · subst hk
    rfl
  · have hbin : (casper_tapcp_read_fpga_words_binary mem
        ⟨false, true, ptr, ((4 * k : Nat) : Int), 0, 0⟩ w0 (4 * k)).2.2 =
        ((fpgaWords mem ptr k).map beBytes).flatten := by
      have hw := rbGo_words mem k ptr w0 []
      unfold casper_tapcp_read_fpga_words_binary
      rcases hE : rbGo mem (4 * k) ptr ((4 * k : Nat) : Int) w0 [] with
        ⟨p, n, w, o⟩
      rw [hE] at hw
      simp only [List.nil_append] at hw
      simp only []
      exact hw
    rw [hbin, parseBE32_flatten (fpgaWords mem ptr k)
      (fun w hw => fpgaWords_lt mem ptr k w hw)]
    obtain ⟨lab, lb, hrun⟩ := rfaGo_run mem (9 * k + 10 * ((k + 3) / 4) + 1) k
      ptr label (9 * k + 10 * ((k + 3) / 4)) [] [] hk (by omega) (by omega)
    unfold casper_tapcp_read_fpga_words_ascii
    simp only [Int.toNat_zero] at hrun ⊢
    rw [hrun]
    simp only [List.nil_append]
    exact asciiRenderedWords_dumpLines mem _ ptr k label (by omega)

end Tapcp
